import Mathlib

/-!
Verification of the ninja dependency log (`src/deps_log.h`).

The repository ships only the header `deps_log.h`; its doc comments and the
accompanying specification describe the on-disk format, the writer, the
loader and the compactor.  The definitions below are a shallow embedding of
that behaviour: files are byte lists, paths are byte lists, machine words
are `Nat` reduced modulo `2^32` where the encoding truncates.
-/

namespace DepsLog

/-- A path is its byte string; node identity in the external graph is the
path string itself (the resolver is idempotent: same string, same node). -/
abbrev Path := List Nat

/-- Modelled from the spec: maximum record payload size, 512 KiB
("max record sizes are capped at 512kB"). -/
def kMaxRecordSize : Nat := 524288

/-- Little-endian encoding of a 32-bit word (value taken modulo 2^32). -/
def le32 (n : Nat) : List Nat :=
  [n % 256, n / 256 % 256, n / 65536 % 256, n / 16777216 % 256]

/-- Read a little-endian 32-bit word from the first four bytes. -/
def readLE32 : List Nat → Nat
  | b0 :: b1 :: b2 :: b3 :: _ => b0 + 256 * b1 + 65536 * b2 + 16777216 * b3
  | _ => 0

/-- Split a byte list into consecutive little-endian 32-bit words. -/
def readWords : List Nat → List Nat
  | b0 :: b1 :: b2 :: b3 :: rest =>
      (b0 + 256 * b1 + 65536 * b2 + 16777216 * b3) :: readWords rest
  | _ => []

/-- Number of zero padding bytes needed to reach a 4-byte boundary. -/
def padLen (n : Nat) : Nat := (4 - n % 4) % 4

/-- Remove the zero padding bytes at the end of a decoded path payload. -/
def stripTrailingZeros (l : List Nat) : List Nat :=
  (l.reverse.dropWhile (· == 0)).reverse

/-- Modelled from the spec: the fixed version header of the file
("the file begins with a fixed version header"): signature line plus a
32-bit version word. -/
def kFileSignature : List Nat :=
  [35, 32, 110, 105, 110, 106, 97, 100, 101, 112, 115, 10]

/-- Current file format version. -/
def kCurrentVersion : Nat := 4

/-- The complete version header written at the start of every log file. -/
def kHeader : List Nat := kFileSignature ++ le32 kCurrentVersion

/-- Modelled from the spec (record codec): payload of a path record — the
raw path bytes, padded with zero bytes to a 4-byte boundary, followed by
the one's complement of the id the record is expected to receive. -/
def pathPayload (p : Path) (id : Nat) : List Nat :=
  p ++ List.replicate (padLen p.length) 0 ++ le32 (4294967295 - id)

/-- Modelled from the spec (record codec): payload of a dependency record —
a flat array of 32-bit words: output id, mtime low word, mtime high word,
then the input ids. -/
def depsPayload (outId : Nat) (mtime : Nat) (inputIds : List Nat) : List Nat :=
  le32 outId ++ le32 (mtime % 4294967296) ++ le32 (mtime / 4294967296) ++
    (inputIds.map le32).flatten

/-- Modelled from the spec (record codec): a record is framed by a 32-bit
length word whose top bit marks a dependency record, followed by the
payload. -/
def encRecord (isDeps : Bool) (payload : List Nat) : List Nat :=
  le32 (payload.length + if isDeps then 2147483648 else 0) ++ payload

instance {e a : Type} [DecidableEq e] [DecidableEq a] : DecidableEq (Except e a) := fun x y =>
  match x, y with
  | .ok u, .ok v =>
    if h : u = v then .isTrue (congrArg Except.ok h)
    else .isFalse fun hc => h (Except.ok.inj hc)
  | .error u, .error v =>
    if h : u = v then .isTrue (congrArg Except.error h)
    else .isFalse fun hc => h (Except.error.inj hc)
  | .ok _, .error _ => .isFalse fun hc => Except.noConfusion hc
  | .error _, .ok _ => .isFalse fun hc => Except.noConfusion hc

/-- One dependency record of the in-memory Deps Index: the recorded mtime
and the ordered input ids. -/
structure DepsRec where
  mtime : Nat
  inputs : List Nat
deriving DecidableEq, Repr

/-- The in-memory state of the log: the Path Table (id to path, in id
order) and the Deps Index (output id to latest dependency record). -/
structure LogState where
  nodes : List Path
  deps : List (Option DepsRec)
deriving DecidableEq, Repr

/-- The empty in-memory state. -/
def emptyState : LogState := ⟨[], []⟩

/-- Set index `i` of the Deps Index, growing the list with empty slots if
needed (mirrors resizing the deps vector before storing). -/
def setAt (l : List (Option DepsRec)) (i : Nat) (v : DepsRec) :
    List (Option DepsRec) :=
  (l ++ List.replicate (i + 1 - l.length) none).set i (some v)

/-- Look up the id of a path in the Path Table (first occurrence). -/
def lookupId (nodes : List Path) (p : Path) : Option Nat :=
  match nodes with
  | [] => none
  | q :: rest => if q = p then some 0 else (lookupId rest p).map (· + 1)

/-- Modelled from the spec (loader): decode one path record payload.  The
loader independently tracks the next expected id; a payload that is too
short or misaligned, or whose trailer is not the one's complement of that
id, makes the record untrustworthy (`none`). -/
def parsePathRecord (payload : List Nat) (st : LogState) : Option LogState :=
  if payload.length < 4 ∨ payload.length % 4 ≠ 0 then none
  else if readLE32 (payload.drop (payload.length - 4)) ≠
      4294967295 - st.nodes.length then none
  else some ⟨st.nodes ++ [stripTrailingZeros (payload.take (payload.length - 4))],
             st.deps⟩

/-- Modelled from the spec (loader): decode one dependency record payload.
A payload that is too short or misaligned, or an output/input id that does
not reference a previously seen path, is a corruption signal (`none`);
otherwise the Deps Index entry for the output id is replaced (latest
wins). -/
def parseDepsRecord (payload : List Nat) (st : LogState) : Option LogState :=
  if payload.length < 12 ∨ payload.length % 4 ≠ 0 then none
  else
    match readWords payload with
    | outId :: mtimeLow :: mtimeHigh :: inputIds =>
      if outId < st.nodes.length ∧ ∀ i ∈ inputIds, i < st.nodes.length then
        some ⟨st.nodes, setAt st.deps outId ⟨mtimeLow + 4294967296 * mtimeHigh, inputIds⟩⟩
      else none
    | _ => none

/-- Modelled from the spec (loader): stream the records of the file body,
replaying each into the in-memory state.  Returns the final state, the
offset one past the last valid record (the salvaged length), and whether
the end of file was reached cleanly.  A record with an oversized or
cropped payload, or one its decoder rejects, is an implicit
end-of-valid-data marker, never a hard failure. -/
def replay (bytes : List Nat) (st : LogState) (off : Nat) :
    LogState × Nat × Bool :=
  if _h4 : bytes.length < 4 then (st, off, bytes.isEmpty)
  else if _hsz : kMaxRecordSize < readLE32 bytes % 2147483648 ∨
      bytes.length < 4 + readLE32 bytes % 2147483648 then (st, off, false)
  else
    match (if 2147483648 ≤ readLE32 bytes then
        parseDepsRecord ((bytes.drop 4).take (readLE32 bytes % 2147483648)) st
      else
        parsePathRecord ((bytes.drop 4).take (readLE32 bytes % 2147483648)) st) with
    | none => (st, off, false)
    | some st2 =>
        replay (bytes.drop (4 + readLE32 bytes % 2147483648)) st2
          (off + (4 + readLE32 bytes % 2147483648))
termination_by bytes.length
decreasing_by
  simp only [List.length_drop]
  omega

/-- The status a load reports: file absent (a valid empty starting state),
invalid version header, clean load, or recovered-after-truncation. -/
inductive LoadStatus where
  | absent
  | headerInvalid
  | loadedClean
  | recovered
deriving DecidableEq, Repr

/-- The result of loading a file: status, reconstructed in-memory state,
and the length of the valid byte prefix that was replayed. -/
structure LoadResult where
  status : LoadStatus
  state : LogState
  validSize : Nat
deriving DecidableEq, Repr

/-- Modelled from the spec (loader): load a log file (`none` = the file
does not exist).  A missing or empty file is the absent status, a bad
version header invalidates the whole file, and otherwise the records are
replayed; corruption only truncates, reported as the recovered status. -/
def load (file : Option (List Nat)) : LoadResult :=
  match file with
  | none => ⟨.absent, emptyState, 0⟩
  | some bytes =>
    if bytes = [] then ⟨.absent, emptyState, 0⟩
    else if bytes.take kHeader.length ≠ kHeader then ⟨.headerInvalid, emptyState, 0⟩
    else
      match replay (bytes.drop kHeader.length) emptyState kHeader.length with
      | (st, off, clean) => ⟨if clean then .loadedClean else .recovered, st, off⟩

/-- The writer: whether the log is open for writing, the bytes of the
on-disk file, and the in-memory state. -/
structure Writer where
  fileOpen : Bool
  file : List Nat
  state : LogState
deriving DecidableEq, Repr

/-- Modelled from the spec (writer): open the file for appending, writing
the version header first when the file is newly created or empty. -/
def openForWrite (f : List Nat) (st : LogState) : Writer :=
  ⟨true, if f = [] then kHeader else f, st⟩

/-- A fresh writer over a newly created log file. -/
def freshWriter : Writer := openForWrite [] emptyState

/-- Modelled from the spec (writer): write a path record for a path not
yet in the Path Table, assigning it the next dense id; a payload above the
512 KiB cap is a hard error and nothing is written. -/
def recordId (w : Writer) (p : Path) : Writer × Except String Nat :=
  match lookupId w.state.nodes p with
  | some id => (w, .ok id)
  | none =>
    if kMaxRecordSize < (pathPayload p w.state.nodes.length).length then
      (w, .error "path record too large")
    else
      (⟨w.fileOpen,
        w.file ++ encRecord false (pathPayload p w.state.nodes.length),
        ⟨w.state.nodes ++ [p], w.state.deps⟩⟩,
       .ok w.state.nodes.length)

/-- Record ids for a list of paths in order, stopping at the first error. -/
def recordIds (w : Writer) (ps : List Path) : Writer × Except String (List Nat) :=
  match ps with
  | [] => (w, .ok [])
  | p :: rest =>
    match recordId w p with
    | (w1, .error e) => (w1, .error e)
    | (w1, .ok id) =>
      match recordIds w1 rest with
      | (w2, .error e) => (w2, .error e)
      | (w2, .ok ids) => (w2, .ok (id :: ids))

/-- Modelled from the spec: update the in-memory Deps Index, discarding
any prior entry for the output id; returns whether a prior entry
existed. -/
def updateDeps (st : LogState) (outId : Nat) (d : DepsRec) : Bool × LogState :=
  ((st.deps.getD outId none).isSome, ⟨st.nodes, setAt st.deps outId d⟩)

/-- Modelled from the spec (writer): record the dependencies of an output.
Recording before the writer is open is an explicit failure; path records
are written for the output and every input not yet assigned an id; a
dependency record binding the output id to the input ids and mtime is
appended; the Deps Index is updated and whether a prior entry existed is
returned.  A payload above the 512 KiB cap is a hard error. -/
def recordDeps (w : Writer) (out : Path) (mtime : Nat) (inputs : List Path) :
    Writer × Except String Bool :=
  if w.fileOpen = false then (w, .error "deps log not opened for writing")
  else
    match recordId w out with
    | (w1, .error e) => (w1, .error e)
    | (w1, .ok outId) =>
      match recordIds w1 inputs with
      | (w2, .error e) => (w2, .error e)
      | (w2, .ok inputIds) =>
        if kMaxRecordSize < (depsPayload outId mtime inputIds).length then
          (w2, .error "too many dependencies")
        else
          match updateDeps w2.state outId ⟨mtime, inputIds⟩ with
          | (prior, st2) =>
            (⟨w2.fileOpen, w2.file ++ encRecord true (depsPayload outId mtime inputIds), st2⟩,
             .ok prior)

/-- Close the writer (flush and release the handle). -/
def closeLog (w : Writer) : Writer := ⟨false, w.file, w.state⟩

/-- Query the Deps Index: the latest dependency record for a path. -/
def getDeps (st : LogState) (p : Path) : Option DepsRec :=
  match lookupId st.nodes p with
  | some id => st.deps.getD id none
  | none => none

/-- Query the Deps Index, resolving the input ids back to paths. -/
def getDepsPaths (st : LogState) (p : Path) : Option (Nat × List Path) :=
  (getDeps st p).map fun d => (d.mtime, d.inputs.map fun i => st.nodes.getD i [])

/-- One `record_deps` call: output path, mtime, input paths. -/
structure RecOp where
  out : Path
  mtime : Nat
  inputs : List Path
deriving DecidableEq, Repr

/-- Run a sequence of `record_deps` calls, stopping at the first error. -/
def runOps (w : Writer) (ops : List RecOp) : Except String Writer :=
  match ops with
  | [] => .ok w
  | op :: rest =>
    match recordDeps w op.out op.mtime op.inputs with
    | (w1, .ok _) => runOps w1 rest
    | (_, .error e) => .error e

/-- A path the codec round-trips: nonempty, no trailing zero byte (the
padding would absorb it), and made of bytes. -/
def ValidPath (p : Path) : Prop :=
  p ≠ [] ∧ p.getLast? ≠ some 0 ∧ ∀ b ∈ p, b < 256

instance : DecidablePred ValidPath := fun p => by
  unfold ValidPath; infer_instance

/-- A `record_deps` call whose paths round-trip and whose mtime fits the
two stored 32-bit words. -/
def ValidOp (op : RecOp) : Prop :=
  ValidPath op.out ∧ op.mtime < 18446744073709551616 ∧ ∀ p ∈ op.inputs, ValidPath p

instance : DecidablePred ValidOp := fun op => by
  unfold ValidOp; infer_instance



/-- Modelled from the spec (loader, step 3): the byte prefix a reopened
writer must append after — the whole file after a clean load, only the
salvaged prefix after a recovered load, nothing when the file is absent
or its header invalid (the caller discards it and starts a new log). -/
def salvage (file : Option (List Nat)) : List Nat :=
  match file with
  | none => []
  | some bytes =>
    match (load (some bytes)).status with
    | LoadStatus.loadedClean => bytes
    | LoadStatus.recovered => bytes.take (load (some bytes)).validSize
    | _ => []

/-- Load a file and reopen the log for appending after the salvaged
prefix (not after the raw file length). -/
def reopen (file : Option (List Nat)) : Writer :=
  openForWrite (salvage file) (load file).state

/-- Whether path id `i` is referenced by a live Deps Index entry (as an
output or as an input of some entry). -/
def isReferenced (st : LogState) (i : Nat) : Bool :=
  (st.deps.getD i none).isSome ||
    st.deps.any fun d =>
      match d with
      | some d => d.inputs.contains i
      | none => false

/-- Path records of the recompacted file: one record per referenced id,
in id order, each keeping its original id in the trailer. -/
def pathRecordsAux (st : LogState) (nodes : List Path) (i : Nat) : List (List Nat) :=
  match nodes with
  | [] => []
  | p :: rest =>
    if isReferenced st i then
      encRecord false (pathPayload p i) :: pathRecordsAux st rest (i + 1)
    else pathRecordsAux st rest (i + 1)

/-- Dependency records of the recompacted file: one record per live Deps
Index entry, in output id order. -/
def depRecordsAux (deps : List (Option DepsRec)) (i : Nat) : List (List Nat) :=
  match deps with
  | [] => []
  | none :: rest => depRecordsAux rest (i + 1)
  | some d :: rest =>
    encRecord true (depsPayload i d.mtime d.inputs) :: depRecordsAux rest (i + 1)

/-- Modelled from the spec (compactor): rewrite the log into a brand-new
file containing the version header, one path record per id still
referenced by a live Deps Index entry (original ids preserved — no
renumbering), and one dependency record per live entry; the in-memory
state is left unchanged. -/
def recompact (w : Writer) : Writer :=
  ⟨w.fileOpen,
   kHeader ++ (pathRecordsAux w.state w.state.nodes 0).flatten
     ++ (depRecordsAux w.state.deps 0).flatten,
   w.state⟩

/-- Size in bytes of an encoded path record (independent of its id). -/
def pathRecSize (p : Path) : Nat := 8 + p.length + padLen p.length

/-- Total size of one path record per path of the table. -/
def allPathBytes (nodes : List Path) : Nat := (nodes.map pathRecSize).sum

/-- Size in bytes of an encoded dependency record. -/
def depRecSize (d : DepsRec) : Nat := 16 + 4 * d.inputs.length

/-- Total size of one dependency record per live Deps Index entry. -/
def liveBytes (deps : List (Option DepsRec)) : Nat :=
  (deps.map fun o =>
    match o with
    | some d => depRecSize d
    | none => 0).sum

/-- Modelled from the spec: record ids for inputs given through a count
and an index function (the pointer-and-count overload of `RecordDeps` in
the header). -/
def recordIdsN (w : Writer) (count : Nat) (data : Nat → Path) :
    Writer × Except String (List Nat) :=
  match count with
  | 0 => (w, .ok [])
  | n + 1 =>
    match recordId w (data 0) with
    | (w1, .error e) => (w1, .error e)
    | (w1, .ok id) =>
      match recordIdsN w1 n (fun i => data (i + 1)) with
      | (w2, .error e) => (w2, .error e)
      | (w2, .ok ids) => (w2, .ok (id :: ids))

/-- Modelled from the spec: the pointer-and-count overload
`RecordDeps(node, mtime, node_count, nodes)` declared in the header,
reading its `node_count` inputs through an index function. -/
def recordDepsN (w : Writer) (out : Path) (mtime : Nat) (count : Nat)
    (data : Nat → Path) : Writer × Except String Bool :=
  if w.fileOpen = false then (w, .error "deps log not opened for writing")
  else
    match recordId w out with
    | (w1, .error e) => (w1, .error e)
    | (w1, .ok outId) =>
      match recordIdsN w1 count data with
      | (w2, .error e) => (w2, .error e)
      | (w2, .ok inputIds) =>
        if kMaxRecordSize < (depsPayload outId mtime inputIds).length then
          (w2, .error "too many dependencies")
        else
          match updateDeps w2.state outId ⟨mtime, inputIds⟩ with
          | (prior, st2) =>
            (⟨w2.fileOpen, w2.file ++ encRecord true (depsPayload outId mtime inputIds),
              st2⟩, .ok prior)

/-- Modelled from the spec: the external node-identity resolver (the
build graph).  Given a path string it returns the corresponding node,
creating it when unseen; it is idempotent — the same string always yields
the same node, node identity being the path string itself. -/
def resolveNode (arena : List Path) (p : Path) : Path × List Path :=
  (p, if p ∈ arena then arena else arena ++ [p])

/-- Path record decoding with the resolver threaded through: the decoded
path is resolved to a node before being interned in the Path Table. -/
def parsePathRecordR (payload : List Nat) (st : LogState) (arena : List Path) :
    Option LogState × List Path :=
  if payload.length < 4 ∨ payload.length % 4 ≠ 0 then (none, arena)
  else if readLE32 (payload.drop (payload.length - 4)) ≠
      4294967295 - st.nodes.length then (none, arena)
  else
    match resolveNode arena (stripTrailingZeros (payload.take (payload.length - 4))) with
    | (node, arena2) => (some ⟨st.nodes ++ [node], st.deps⟩, arena2)

/-- Record replay with the resolver state threaded through. -/
def replayR (bytes : List Nat) (st : LogState) (arena : List Path) (off : Nat) :
    (LogState × Nat × Bool) × List Path :=
  if _h4 : bytes.length < 4 then ((st, off, bytes.isEmpty), arena)
  else if _hsz : kMaxRecordSize < readLE32 bytes % 2147483648 ∨
      bytes.length < 4 + readLE32 bytes % 2147483648 then ((st, off, false), arena)
  else if 2147483648 ≤ readLE32 bytes then
    match parseDepsRecord ((bytes.drop 4).take (readLE32 bytes % 2147483648)) st with
    | none => ((st, off, false), arena)
    | some st2 =>
        replayR (bytes.drop (4 + readLE32 bytes % 2147483648)) st2 arena
          (off + (4 + readLE32 bytes % 2147483648))
  else
    match parsePathRecordR ((bytes.drop 4).take (readLE32 bytes % 2147483648)) st arena with
    | (none, arena2) => ((st, off, false), arena2)
    | (some st2, arena2) =>
        replayR (bytes.drop (4 + readLE32 bytes % 2147483648)) st2 arena2
          (off + (4 + readLE32 bytes % 2147483648))
termination_by bytes.length
decreasing_by
  all_goals simp only [List.length_drop]
  all_goals omega

/-- Modelled from the spec (loader): load with an explicit initial
resolver state (the graph a caller already holds). -/
def loadR (file : Option (List Nat)) (arena : List Path) :
    LoadResult × List Path :=
  match file with
  | none => (⟨.absent, emptyState, 0⟩, arena)
  | some bytes =>
    if bytes = [] then (⟨.absent, emptyState, 0⟩, arena)
    else if bytes.take kHeader.length ≠ kHeader then
      (⟨.headerInvalid, emptyState, 0⟩, arena)
    else
      match replayR (bytes.drop kHeader.length) emptyState arena kHeader.length with
      | ((st, off, clean), arena2) =>
        (⟨if clean then .loadedClean else .recovered, st, off⟩, arena2)


/-- A concrete run used by the witnesses: the same output recorded twice
with different mtimes and inputs. -/
def demoOps : List RecOp :=
  [⟨[65], 100, [[66], [67]]⟩, ⟨[65], 200, [[66], [68]]⟩]

/-- The writer produced by the concrete run. -/
def demoW : Writer :=
  match runOps freshWriter demoOps with
  | .ok w => w
  | .error _ => freshWriter

/-- Concrete garbage bytes whose first record header is oversized. -/
def demoGarbage : List Nat := [255, 255, 255, 255]


/-- Whether a writer call succeeded (true) or reported a hard error. -/
def isOkE (r : Except String Bool) : Bool :=
  match r with
  | .ok _ => true
  | .error _ => false

/-- The writer after one further `record_deps` call on the concrete run,
overwriting the existing entry a third time. -/
def demoW2 : Writer := (recordDeps demoW [65] 300 [[66]]).1


theorem le32_length (n : Nat) : (le32 n).length = 4 := rfl

theorem encRecord_length (b : Bool) (payload : List Nat) :
    (encRecord b payload).length = 4 + payload.length := by
  simp only [encRecord, List.length_append, le32_length]

theorem flatten_le32_length (ids : List Nat) :
    ((ids.map le32).flatten).length = 4 * ids.length := by
  induction ids with
  | nil => rfl
  | cons a rest ih => simp [le32, ih]; omega

theorem pathPayload_length (p : Path) (id : Nat) :
    (pathPayload p id).length = p.length + padLen p.length + 4 := by
  simp only [pathPayload, List.length_append, le32_length, List.length_replicate]

theorem depsPayload_length (o m : Nat) (ids : List Nat) :
    (depsPayload o m ids).length = 12 + 4 * ids.length := by
  simp only [depsPayload, List.length_append, le32_length, flatten_le32_length]

theorem readLE32_le32_append (n : Nat) (rest : List Nat) :
    readLE32 (le32 n ++ rest) = n % 4294967296 := by
  simp [le32, readLE32]
  omega

theorem readWords_le32_append (a : Nat) (rest : List Nat) :
    readWords (le32 a ++ rest) = (a % 4294967296) :: readWords rest := by
  simp [le32, readWords]
  omega

theorem readWords_flatten (ids : List Nat) (h : ∀ i ∈ ids, i < 4294967296) :
    readWords ((ids.map le32).flatten) = ids := by
  induction ids with
  | nil => rfl
  | cons a rest ih =>
    simp only [List.map_cons, List.flatten_cons]
    rw [readWords_le32_append, Nat.mod_eq_of_lt (h a (by simp)),
      ih fun i hi => h i (by simp [hi])]

theorem drop4_le32_append (n : Nat) (l : List Nat) : (le32 n ++ l).drop 4 = l := by
  simp [le32]

theorem length_le32_append (n : Nat) (l : List Nat) :
    (le32 n ++ l).length = 4 + l.length := by
  simp only [List.length_append, le32_length]

theorem padLen_lt (n : Nat) : padLen n < 4 := by
  unfold padLen; omega

theorem padLen_mod (n : Nat) : (n + padLen n) % 4 = 0 := by
  unfold padLen; omega

theorem dropWhile_replicate_zero_append (k : Nat) (l : List Nat) :
    (List.replicate k 0 ++ l).dropWhile (· == 0) = l.dropWhile (· == 0) := by
  induction k with
  | zero => rfl
  | succ n ih => simp [List.replicate_succ, List.dropWhile, ih]

theorem stripTrailingZeros_pad (p : Path) (k : Nat) (h1 : p ≠ [])
    (h2 : p.getLast? ≠ some 0) :
    stripTrailingZeros (p ++ List.replicate k 0) = p := by
  unfold stripTrailingZeros
  rw [List.reverse_append, List.reverse_replicate, dropWhile_replicate_zero_append]
  have hrev : p.reverse.head? = some (p.getLast h1) := by
    rw [List.head?_reverse, List.getLast?_eq_getLast p h1]
  obtain ⟨t, ht⟩ : ∃ t, p.reverse = p.getLast h1 :: t := by
    cases hr : p.reverse with
    | nil => rw [hr] at hrev; simp at hrev
    | cons a t =>
      rw [hr] at hrev; simp at hrev
      exact ⟨t, by rw [hrev]⟩
  have hlast : p.getLast h1 ≠ 0 := by
    intro h0
    exact h2 (by rw [List.getLast?_eq_getLast p h1, h0])
  rw [ht, List.dropWhile_cons_of_neg (by simpa using hlast), ← ht,
    List.reverse_reverse]


theorem lookupId_lt_length {nodes : List Path} {p : Path} {i : Nat}
    (h : lookupId nodes p = some i) : i < nodes.length := by
  induction nodes generalizing i with
  | nil => simp [lookupId] at h
  | cons q rest ih =>
    rw [lookupId] at h
    by_cases hq : q = p
    · simp [hq] at h
      simp [← h]
    · simp only [hq, if_false, Option.map_eq_some'] at h
      obtain ⟨j, hj, rfl⟩ := h
      have := ih hj
      simp only [List.length_cons]
      omega

theorem lookupId_getD {nodes : List Path} {p : Path} {i : Nat}
    (h : lookupId nodes p = some i) : nodes.getD i [] = p := by
  induction nodes generalizing i with
  | nil => simp [lookupId] at h
  | cons q rest ih =>
    rw [lookupId] at h
    by_cases hq : q = p
    · simp [hq] at h
      simp [← h, hq]
    · simp only [hq, if_false, Option.map_eq_some'] at h
      obtain ⟨j, hj, rfl⟩ := h
      simpa using ih hj

theorem lookupId_none_iff {nodes : List Path} {p : Path} :
    lookupId nodes p = none ↔ p ∉ nodes := by
  induction nodes with
  | nil => simp [lookupId]
  | cons q rest ih =>
    rw [lookupId]
    by_cases hq : q = p
    · simp [hq]
    · simp [hq, Option.map_eq_none', ih]
      exact fun _ h => hq h.symm

theorem lookupId_append_left {nodes : List Path} {p : Path} {i : Nat}
    (tail : List Path) (h : lookupId nodes p = some i) :
    lookupId (nodes ++ tail) p = some i := by
  induction nodes generalizing i with
  | nil => simp [lookupId] at h
  | cons q rest ih =>
    rw [lookupId] at h
    rw [List.cons_append, lookupId]
    by_cases hq : q = p
    · simpa [hq] using h
    · simp only [hq, if_false, Option.map_eq_some'] at h ⊢
      obtain ⟨j, hj, rfl⟩ := h
      exact ⟨j, ih hj, rfl⟩

theorem lookupId_snoc_self {nodes : List Path} {p : Path}
    (h : lookupId nodes p = none) :
    lookupId (nodes ++ [p]) p = some nodes.length := by
  induction nodes with
  | nil => simp [lookupId]
  | cons q rest ih =>
    rw [lookupId] at h
    rw [List.cons_append, lookupId]
    by_cases hq : q = p
    · simp [hq] at h
    · simp only [hq, if_false, Option.map_eq_none'] at h
      simp [hq, ih h]

theorem lookupId_snoc_ne {nodes : List Path} {p q : Path} (hne : q ≠ p) :
    lookupId (nodes ++ [q]) p = lookupId nodes p := by
  induction nodes with
  | nil => simp [lookupId, hne]
  | cons r rest ih =>
    rw [List.cons_append, lookupId, lookupId]
    by_cases hr : r = p
    · simp [hr]
    · simp [hr, ih]

theorem lookupId_nodup_getD {nodes : List Path} (h : nodes.Nodup) {i : Nat}
    (hi : i < nodes.length) : lookupId nodes (nodes.getD i []) = some i := by
  induction nodes generalizing i with
  | nil => simp at hi
  | cons q rest ih =>
    rw [List.nodup_cons] at h
    match i with
    | 0 => simp [lookupId]
    | j + 1 =>
      have hj : j < rest.length := by
        simpa using hi
      have hmem : rest.getD j [] ∈ rest := by
        rw [List.getD_eq_getElem rest [] hj]
        exact List.getElem_mem hj
      have hq : q ≠ rest.getD j [] := fun heq => h.1 (heq ▸ hmem)
      rw [List.getD_cons_succ, lookupId, if_neg hq, ih h.2 hj]
      rfl

theorem setAt_length (l : List (Option DepsRec)) (i : Nat) (v : DepsRec) :
    (setAt l i v).length = max l.length (i + 1) := by
  simp [setAt]
  omega

theorem setAt_getD_self (l : List (Option DepsRec)) (i : Nat) (v : DepsRec) :
    (setAt l i v).getD i none = some v := by
  unfold setAt
  rw [List.getD_eq_getElem?_getD, List.getElem?_set_self']
  have hi : i < (l ++ List.replicate (i + 1 - l.length) none).length := by
    simp
    omega
  simp [List.getElem?_eq_getElem hi]

theorem setAt_getD_ne (l : List (Option DepsRec)) {i j : Nat} (v : DepsRec)
    (hne : j ≠ i) : (setAt l i v).getD j none = l.getD j none := by
  unfold setAt
  rw [List.getD_eq_getElem?_getD, List.getElem?_set_ne (fun h => hne h.symm)]
  by_cases hj : j < l.length
  · rw [List.getElem?_append_left hj, List.getD_eq_getElem?_getD]
  · rw [List.getElem?_append_right (by omega), List.getD_eq_getElem?_getD,
      List.getElem?_replicate]
    rw [List.getElem?_eq_none (by omega)]
    split <;> rfl


theorem replay_nil (st : LogState) (off : Nat) : replay [] st off = (st, off, true) := by
  rw [replay]
  rfl

theorem replay_stop_short {bytes : List Nat} (st : LogState) (off : Nat)
    (h : bytes.length < 4) (hne : bytes ≠ []) :
    replay bytes st off = (st, off, false) := by
  rw [replay, dif_pos h]
  simp [hne]

theorem replay_stop_oversize {bytes : List Nat} (st : LogState) (off : Nat)
    (h4 : ¬ bytes.length < 4)
    (hsz : kMaxRecordSize < readLE32 bytes % 2147483648 ∨
      bytes.length < 4 + readLE32 bytes % 2147483648) :
    replay bytes st off = (st, off, false) := by
  rw [replay, dif_neg h4, dif_pos hsz]

theorem replay_stop_badparse {bytes : List Nat} (st : LogState) (off : Nat)
    (h4 : ¬ bytes.length < 4)
    (hsz : ¬ (kMaxRecordSize < readLE32 bytes % 2147483648 ∨
      bytes.length < 4 + readLE32 bytes % 2147483648))
    (hparse : (if 2147483648 ≤ readLE32 bytes then
        parseDepsRecord ((bytes.drop 4).take (readLE32 bytes % 2147483648)) st
      else
        parsePathRecord ((bytes.drop 4).take (readLE32 bytes % 2147483648)) st) = none) :
    replay bytes st off = (st, off, false) := by
  rw [replay, dif_neg h4, dif_neg hsz, hparse]

theorem replay_record {isDeps : Bool} {payload : List Nat} {st st2 : LogState}
    (rest : List Nat) (off : Nat)
    (hcap : payload.length ≤ kMaxRecordSize)
    (hparse : (if isDeps then parseDepsRecord payload st else parsePathRecord payload st) =
      some st2) :
    replay (encRecord isDeps payload ++ rest) st off =
      replay rest st2 (off + (4 + payload.length)) := by
  have hcap' : payload.length ≤ 524288 := hcap
  have hb : encRecord isDeps payload ++ rest
      = le32 (payload.length + if isDeps then 2147483648 else 0) ++ (payload ++ rest) := by
    simp [encRecord]
  have hread : readLE32 (encRecord isDeps payload ++ rest)
      = payload.length + (if isDeps then 2147483648 else 0) := by
    rw [hb, readLE32_le32_append, Nat.mod_eq_of_lt]
    cases isDeps <;> simp <;> omega
  have hmod : readLE32 (encRecord isDeps payload ++ rest) % 2147483648 = payload.length := by
    rw [hread]
    cases isDeps <;> simp <;> omega
  have hlen : (encRecord isDeps payload ++ rest).length = 4 + (payload.length + rest.length) := by
    rw [hb, length_le32_append, List.length_append]
  have h4 : ¬ (encRecord isDeps payload ++ rest).length < 4 := by
    rw [hlen]; omega
  have hsz : ¬ (kMaxRecordSize < readLE32 (encRecord isDeps payload ++ rest) % 2147483648 ∨
      (encRecord isDeps payload ++ rest).length < 4 +
        readLE32 (encRecord isDeps payload ++ rest) % 2147483648) := by
    rw [hmod, hlen]
    push_neg
    refine ⟨hcap, by omega⟩
  have hdrop4 : (encRecord isDeps payload ++ rest).drop 4 = payload ++ rest := by
    rw [hb, drop4_le32_append]
  have htake : (payload ++ rest).take payload.length = payload := by
    rw [List.take_append_of_le_length (le_refl _), List.take_length]
  have hdropall : (encRecord isDeps payload ++ rest).drop (4 + payload.length) = rest := by
    have h44 : (4 : Nat) + payload.length
        = (le32 (payload.length + if isDeps then 2147483648 else 0)).length + payload.length := by
      rw [le32_length]
    rw [hb, h44, List.drop_append, List.drop_left]
  rw [replay, dif_neg h4, dif_neg hsz]
  cases isDeps with
  | false =>
    have hnd : ¬ 2147483648 ≤ readLE32 (encRecord false payload ++ rest) := by
      rw [hread]; simp; omega
    rw [if_neg hnd, hmod, hdrop4, htake]
    simp only [Bool.false_eq_true, if_false] at hparse
    rw [hparse, hdropall]
  | true =>
    have hd : 2147483648 ≤ readLE32 (encRecord true payload ++ rest) := by
      rw [hread]; simp
    rw [if_pos hd, hmod, hdrop4, htake]
    simp only [if_true] at hparse
    rw [hparse, hdropall]


theorem readLE32_le32 (n : Nat) : readLE32 (le32 n) = n % 4294967296 := by
  simp [le32, readLE32]
  omega

theorem parsePathRecord_encode (p : Path) (st : LogState) (hp : ValidPath p) :
    parsePathRecord (pathPayload p st.nodes.length) st = some ⟨st.nodes ++ [p], st.deps⟩ := by
  have hL : (pathPayload p st.nodes.length).length = p.length + padLen p.length + 4 :=
    pathPayload_length p st.nodes.length
  have hmod4 := padLen_mod p.length
  have hlencond : ¬ ((pathPayload p st.nodes.length).length < 4 ∨
      (pathPayload p st.nodes.length).length % 4 ≠ 0) := by
    rw [hL]
    push_neg
    refine ⟨by omega, by omega⟩
  have hplen : (p ++ List.replicate (padLen p.length) 0).length
      = p.length + padLen p.length := by
    simp
  have hdrop : (pathPayload p st.nodes.length).drop
      ((pathPayload p st.nodes.length).length - 4) = le32 (4294967295 - st.nodes.length) := by
    rw [hL, Nat.add_sub_cancel]
    unfold pathPayload
    rw [← hplen, List.drop_left]
  have htake : (pathPayload p st.nodes.length).take
      ((pathPayload p st.nodes.length).length - 4) = p ++ List.replicate (padLen p.length) 0 := by
    rw [hL, Nat.add_sub_cancel]
    unfold pathPayload
    rw [← hplen, List.take_left]
  have hread : readLE32 ((pathPayload p st.nodes.length).drop
      ((pathPayload p st.nodes.length).length - 4)) = 4294967295 - st.nodes.length := by
    rw [hdrop, readLE32_le32, Nat.mod_eq_of_lt (by omega)]
  unfold parsePathRecord
  rw [if_neg hlencond, if_neg (by simp [hread]), htake,
    stripTrailingZeros_pad p (padLen p.length) hp.1 hp.2.1]

theorem parseDepsRecord_encode (outId mtime : Nat) (ids : List Nat) (st : LogState)
    (ho : outId < st.nodes.length) (hi : ∀ i ∈ ids, i < st.nodes.length)
    (hm : mtime < 18446744073709551616) (hn : st.nodes.length ≤ 4294967296) :
    parseDepsRecord (depsPayload outId mtime ids) st =
      some ⟨st.nodes, setAt st.deps outId ⟨mtime, ids⟩⟩ := by
  have hlencond : ¬ ((depsPayload outId mtime ids).length < 12 ∨
      (depsPayload outId mtime ids).length % 4 ≠ 0) := by
    rw [depsPayload_length]
    push_neg
    refine ⟨by omega, by omega⟩
  have hwords : readWords (depsPayload outId mtime ids)
      = outId :: (mtime % 4294967296) :: (mtime / 4294967296) :: ids := by
    unfold depsPayload
    rw [List.append_assoc, List.append_assoc, readWords_le32_append,
      readWords_le32_append, readWords_le32_append,
      readWords_flatten ids (fun i hmem => lt_of_lt_of_le (hi i hmem) hn),
      Nat.mod_eq_of_lt (lt_of_lt_of_le ho hn)]
    have h1 : mtime % 4294967296 % 4294967296 = mtime % 4294967296 := by omega
    have h2 : mtime / 4294967296 % 4294967296 = mtime / 4294967296 := by omega
    rw [h1, h2]
  unfold parseDepsRecord
  rw [if_neg hlencond, hwords]
  simp only
  rw [if_pos ⟨ho, hi⟩]
  have hmt : mtime % 4294967296 + 4294967296 * (mtime / 4294967296) = mtime := by
    omega
  rw [hmt]


/-- In-memory well-formedness: the Path Table has no duplicate paths, the
Deps Index is no longer than the Path Table, and every entry references
only assigned ids. -/
def StateInv (st : LogState) : Prop :=
  st.nodes.Nodup ∧ st.deps.length ≤ st.nodes.length ∧
  ∀ j d, st.deps.getD j none = some d → ∀ i ∈ d.inputs, i < st.nodes.length

/-- The record bytes `rb` replay from the empty state to exactly `st`,
no matter what bytes follow them. -/
def ReplayEquiv (rb : List Nat) (st : LogState) : Prop :=
  ∀ rest off, replay (rb ++ rest) emptyState off = replay rest st (off + rb.length)

/-- The writer's file is the header followed by record bytes that replay
to the writer's in-memory state. -/
def FileInv (w : Writer) : Prop :=
  ∃ rb, w.file = kHeader ++ rb ∧ ReplayEquiv rb w.state

/-- A well-formed open writer. -/
def GoodWriter (w : Writer) : Prop :=
  w.fileOpen = true ∧ StateInv w.state ∧ FileInv w

theorem replayEquiv_nil : ReplayEquiv [] emptyState := by
  intro rest off
  simp

theorem replayEquiv_snoc {rb : List Nat} {st st2 : LogState} {isDeps : Bool}
    {payload : List Nat} (h : ReplayEquiv rb st)
    (hcap : payload.length ≤ kMaxRecordSize)
    (hparse : (if isDeps then parseDepsRecord payload st else parsePathRecord payload st) =
      some st2) :
    ReplayEquiv (rb ++ encRecord isDeps payload) st2 := by
  intro rest off
  rw [List.append_assoc, h (encRecord isDeps payload ++ rest) off,
    replay_record rest _ hcap hparse]
  have harith : off + rb.length + (4 + payload.length)
      = off + (rb ++ encRecord isDeps payload).length := by
    rw [List.length_append, encRecord_length]
    omega
  rw [harith]

theorem goodWriter_fresh : GoodWriter freshWriter := by
  refine ⟨rfl, ⟨List.nodup_nil, le_refl 0, ?_⟩, [], ?_, replayEquiv_nil⟩
  · intro j d hd
    simp [freshWriter, openForWrite, emptyState] at hd
  · simp [freshWriter, openForWrite]

theorem recordId_found {w : Writer} {p : Path} {id : Nat}
    (h : lookupId w.state.nodes p = some id) : recordId w p = (w, .ok id) := by
  unfold recordId
  rw [h]

theorem recordId_ok_inv {w w1 : Writer} {p : Path} {id : Nat}
    (h : recordId w p = (w1, .ok id)) :
    (lookupId w.state.nodes p = some id ∧ w1 = w) ∨
    (lookupId w.state.nodes p = none ∧ id = w.state.nodes.length ∧
      (pathPayload p w.state.nodes.length).length ≤ kMaxRecordSize ∧
      w1 = ⟨w.fileOpen, w.file ++ encRecord false (pathPayload p w.state.nodes.length),
        ⟨w.state.nodes ++ [p], w.state.deps⟩⟩) := by
  unfold recordId at h
  cases hl : lookupId w.state.nodes p with
  | some j =>
    rw [hl] at h
    have h1 : w = w1 := congrArg Prod.fst h
    have h2 : j = id := Except.ok.inj (congrArg Prod.snd h)
    exact Or.inl ⟨congrArg some h2, h1.symm⟩
  | none =>
    rw [hl] at h
    by_cases hbig : kMaxRecordSize < (pathPayload p w.state.nodes.length).length
    · rw [if_pos hbig] at h
      have hbad : (Except.error "path record too large" : Except String Nat) = .ok id :=
        congrArg Prod.snd h
      exact Except.noConfusion hbad
    · rw [if_neg hbig] at h
      have h1 := congrArg Prod.fst h
      have h2 := Except.ok.inj (congrArg Prod.snd h)
      exact Or.inr ⟨rfl, h2.symm, by omega, h1.symm⟩

theorem recordId_facts {w w1 : Writer} {p : Path} {id : Nat}
    (h : recordId w p = (w1, .ok id)) :
    w1.fileOpen = w.fileOpen ∧ w1.state.deps = w.state.deps ∧
    (∃ tail, w1.state.nodes = w.state.nodes ++ tail) ∧
    lookupId w1.state.nodes p = some id := by
  rcases recordId_ok_inv h with ⟨hl, rfl⟩ | ⟨hl, hid, _, rfl⟩
  · exact ⟨rfl, rfl, ⟨[], by simp⟩, hl⟩
  · exact ⟨rfl, rfl, ⟨[p], rfl⟩, by rw [hid]; exact lookupId_snoc_self hl⟩

theorem nodup_snoc {nodes : List Path} {p : Path} (hn : nodes.Nodup)
    (hp : p ∉ nodes) : (nodes ++ [p]).Nodup := by
  rw [List.nodup_append]
  refine ⟨hn, List.nodup_singleton p, ?_⟩
  simp only [List.Disjoint, List.mem_singleton]
  intro a ha hap
  exact hp (hap ▸ ha)

theorem recordId_good {w w1 : Writer} {p : Path} {id : Nat} (hg : GoodWriter w)
    (hp : ValidPath p) (h : recordId w p = (w1, .ok id)) : GoodWriter w1 := by
  rcases recordId_ok_inv h with ⟨_, rfl⟩ | ⟨hl, _, hcap, rfl⟩
  · exact hg
  · obtain ⟨hopen, ⟨hnd, hdl, hent⟩, rb, hfile, hre⟩ := hg
    refine ⟨hopen, ⟨nodup_snoc hnd (lookupId_none_iff.1 hl), ?_, ?_⟩,
      rb ++ encRecord false (pathPayload p w.state.nodes.length), ?_, ?_⟩
    · simp only [List.length_append, List.length_singleton]
      omega
    · intro j d hd i hi
      have := hent j d hd i hi
      simp only [List.length_append, List.length_singleton]
      omega
    · rw [hfile, List.append_assoc]
    · exact replayEquiv_snoc hre hcap (parsePathRecord_encode p w.state hp)


theorem recordIds_facts {ps : List Path} {w w2 : Writer} {ids : List Nat}
    (h : recordIds w ps = (w2, .ok ids)) :
    w2.fileOpen = w.fileOpen ∧ w2.state.deps = w.state.deps ∧
    (∃ tail, w2.state.nodes = w.state.nodes ++ tail) ∧
    ids.length = ps.length ∧
    (∀ j, j < ps.length → lookupId w2.state.nodes (ps.getD j []) = some (ids.getD j 0)) ∧
    (∀ i ∈ ids, i < w2.state.nodes.length) := by
  induction ps generalizing w ids with
  | nil =>
    unfold recordIds at h
    have h1 : w = w2 := congrArg Prod.fst h
    have h2 : ([] : List Nat) = ids := Except.ok.inj (congrArg Prod.snd h)
    subst h1
    subst h2
    exact ⟨rfl, rfl, ⟨[], by simp⟩, rfl, fun j hj => by simp at hj, fun i hi => by simp at hi⟩
  | cons p rest ih =>
    unfold recordIds at h
    rcases hra : recordId w p with ⟨wa, ra⟩
    rw [hra] at h
    cases ra with
    | error e => exact Except.noConfusion (congrArg Prod.snd h)
    | ok id =>
      dsimp only at h
      rcases hrb : recordIds wa rest with ⟨wb, rb⟩
      rw [hrb] at h
      cases rb with
      | error e => exact Except.noConfusion (congrArg Prod.snd h)
      | ok ids2 =>
        have hw : wb = w2 := congrArg Prod.fst h
        have hids : id :: ids2 = ids := Except.ok.inj (congrArg Prod.snd h)
        subst hw
        subst hids
        obtain ⟨fo1, dp1, ⟨t1, ht1⟩, hl1⟩ := recordId_facts hra
        obtain ⟨fo2, dp2, ⟨t2, ht2⟩, hlen2, hlook2, hbnd2⟩ := ih hrb
        have hl1w2 : lookupId wb.state.nodes p = some id := by
          rw [ht2]
          exact lookupId_append_left t2 hl1
        refine ⟨fo2.trans fo1, dp2.trans dp1, ⟨t1 ++ t2, ?_⟩, by simp [hlen2], ?_, ?_⟩
        · rw [ht2, ht1, List.append_assoc]
        · intro j hj
          match j with
          | 0 => simpa using hl1w2
          | j + 1 =>
            simp only [List.getD_cons_succ]
            exact hlook2 j (by simpa using hj)
        · intro i hi
          rcases List.mem_cons.1 hi with rfl | hi2
          · exact lookupId_lt_length hl1w2
          · exact hbnd2 i hi2

theorem recordIds_good {ps : List Path} {w w2 : Writer} {ids : List Nat}
    (hg : GoodWriter w) (hps : ∀ p ∈ ps, ValidPath p)
    (h : recordIds w ps = (w2, .ok ids)) : GoodWriter w2 := by
  induction ps generalizing w ids with
  | nil =>
    unfold recordIds at h
    have h1 : w = w2 := congrArg Prod.fst h
    exact h1 ▸ hg
  | cons p rest ih =>
    unfold recordIds at h
    rcases hra : recordId w p with ⟨wa, ra⟩
    rw [hra] at h
    cases ra with
    | error e => exact Except.noConfusion (congrArg Prod.snd h)
    | ok id =>
      dsimp only at h
      rcases hrb : recordIds wa rest with ⟨wb, rb⟩
      rw [hrb] at h
      cases rb with
      | error e => exact Except.noConfusion (congrArg Prod.snd h)
      | ok ids2 =>
        have hw : wb = w2 := congrArg Prod.fst h
        subst hw
        exact ih (recordId_good hg (hps p (by simp)) hra)
          (fun q hq => hps q (by simp [hq])) hrb

theorem recordDeps_decomp {w w' : Writer} {out : Path} {m : Nat} {ins : List Path}
    {b : Bool} (h : recordDeps w out m ins = (w', .ok b)) :
    w.fileOpen = true ∧
    ∃ wa outId w2 inputIds,
      recordId w out = (wa, .ok outId) ∧
      recordIds wa ins = (w2, .ok inputIds) ∧
      (depsPayload outId m inputIds).length ≤ kMaxRecordSize ∧
      w' = ⟨w2.fileOpen, w2.file ++ encRecord true (depsPayload outId m inputIds),
        ⟨w2.state.nodes, setAt w2.state.deps outId ⟨m, inputIds⟩⟩⟩ ∧
      b = (w2.state.deps.getD outId none).isSome := by
  unfold recordDeps at h
  by_cases hopen : w.fileOpen = false
  · rw [if_pos hopen] at h
    exact Except.noConfusion (congrArg Prod.snd h)
  · rw [if_neg hopen] at h
    refine ⟨by simpa using hopen, ?_⟩
    rcases hra : recordId w out with ⟨wa, ra⟩
    rw [hra] at h
    cases ra with
    | error e => exact Except.noConfusion (congrArg Prod.snd h)
    | ok outId =>
      dsimp only at h
      rcases hrb : recordIds wa ins with ⟨wb, rb⟩
      rw [hrb] at h
      cases rb with
      | error e => exact Except.noConfusion (congrArg Prod.snd h)
      | ok inputIds =>
        dsimp only at h
        by_cases hbig : kMaxRecordSize < (depsPayload outId m inputIds).length
        · rw [if_pos hbig] at h
          exact Except.noConfusion (congrArg Prod.snd h)
        · rw [if_neg hbig] at h
          unfold updateDeps at h
          have hw : _ = w' := congrArg Prod.fst h
          have hb : _ = Except.ok b := congrArg Prod.snd h
          exact ⟨wa, outId, wb, inputIds, rfl, hrb, by omega, hw.symm,
            (Except.ok.inj hb).symm⟩


theorem recordId_file_ext {w w1 : Writer} {p : Path} {id : Nat}
    (h : recordId w p = (w1, .ok id)) : ∃ f, w1.file = w.file ++ f := by
  rcases recordId_ok_inv h with ⟨_, rfl⟩ | ⟨_, _, _, rfl⟩
  · exact ⟨[], by simp⟩
  · exact ⟨_, rfl⟩

theorem recordIds_file_ext {ps : List Path} {w w2 : Writer} {ids : List Nat}
    (h : recordIds w ps = (w2, .ok ids)) : ∃ f, w2.file = w.file ++ f := by
  induction ps generalizing w ids with
  | nil =>
    unfold recordIds at h
    have h1 : w = w2 := congrArg Prod.fst h
    exact ⟨[], by rw [← h1]; simp⟩
  | cons p rest ih =>
    unfold recordIds at h
    rcases hra : recordId w p with ⟨wa, ra⟩
    rw [hra] at h
    cases ra with
    | error e => exact Except.noConfusion (congrArg Prod.snd h)
    | ok id =>
      dsimp only at h
      rcases hrb : recordIds wa rest with ⟨wb, rb⟩
      rw [hrb] at h
      cases rb with
      | error e => exact Except.noConfusion (congrArg Prod.snd h)
      | ok ids2 =>
        have hw : wb = w2 := congrArg Prod.fst h
        subst hw
        obtain ⟨f1, hf1⟩ := recordId_file_ext hra
        obtain ⟨f2, hf2⟩ := ih hrb
        exact ⟨f1 ++ f2, by rw [hf2, hf1, List.append_assoc]⟩

theorem recordDeps_extends {w w' : Writer} {out : Path} {m : Nat} {ins : List Path}
    {b : Bool} (h : recordDeps w out m ins = (w', .ok b)) :
    w'.fileOpen = w.fileOpen ∧
    (∃ t, w'.state.nodes = w.state.nodes ++ t) ∧
    (∃ f, w'.file = w.file ++ f) := by
  obtain ⟨hopen, wa, outId, w2, inputIds, hra, hrb, hcap, hw', hb⟩ := recordDeps_decomp h
  obtain ⟨fo1, _, ⟨t1, ht1⟩, _⟩ := recordId_facts hra
  obtain ⟨fo2, _, ⟨t2, ht2⟩, _, _, _⟩ := recordIds_facts hrb
  obtain ⟨f1, hf1⟩ := recordId_file_ext hra
  obtain ⟨f2, hf2⟩ := recordIds_file_ext hrb
  subst hw'
  refine ⟨fo2.trans fo1, ⟨t1 ++ t2, ?_⟩, ⟨f1 ++ (f2 ++ encRecord true (depsPayload outId m inputIds)), ?_⟩⟩
  · show w2.state.nodes = w.state.nodes ++ (t1 ++ t2)
    rw [ht2, ht1, List.append_assoc]
  · show w2.file ++ encRecord true (depsPayload outId m inputIds) = _
    rw [hf2, hf1]
    simp [List.append_assoc]

theorem recordDeps_good {w w' : Writer} {out : Path} {m : Nat} {ins : List Path}
    {b : Bool} (hg : GoodWriter w) (hout : ValidPath out)
    (hins : ∀ p ∈ ins, ValidPath p) (hm : m < 18446744073709551616)
    (h : recordDeps w out m ins = (w', .ok b))
    (hbound : w'.state.nodes.length ≤ 4294967296) : GoodWriter w' := by
  obtain ⟨hopen, wa, outId, w2, inputIds, hra, hrb, hcap, hw', hb⟩ := recordDeps_decomp h
  have hga : GoodWriter wa := recordId_good hg hout hra
  have hg2 : GoodWriter w2 := recordIds_good hga hins hrb
  obtain ⟨_, _, _, hlookOut⟩ := recordId_facts hra
  obtain ⟨_, _, ⟨t2, ht2⟩, _, _, hbnd⟩ := recordIds_facts hrb
  have hlookOut2 : lookupId w2.state.nodes out = some outId := by
    rw [ht2]
    exact lookupId_append_left t2 hlookOut
  have houtlt : outId < w2.state.nodes.length := lookupId_lt_length hlookOut2
  have hnodes' : w'.state.nodes = w2.state.nodes := by rw [hw']
  rw [hnodes'] at hbound
  obtain ⟨ho2, ⟨hnd2, hdl2, hent2⟩, rb2, hfile2, hre2⟩ := hg2
  subst hw'
  refine ⟨ho2, ⟨hnd2, ?_, ?_⟩,
    rb2 ++ encRecord true (depsPayload outId m inputIds), ?_, ?_⟩
  · show (setAt w2.state.deps outId ⟨m, inputIds⟩).length ≤ w2.state.nodes.length
    rw [setAt_length]
    omega
  · intro j d hd i hi
    show i < w2.state.nodes.length
    by_cases hj : j = outId
    · subst hj
      rw [setAt_getD_self] at hd
      have hde : ({ mtime := m, inputs := inputIds } : DepsRec) = d := Option.some.inj hd
      rw [← hde] at hi
      exact hbnd i hi
    · rw [setAt_getD_ne _ _ hj] at hd
      exact hent2 j d hd i hi
  · show w2.file ++ _ = kHeader ++ _
    rw [hfile2, List.append_assoc]
  · exact replayEquiv_snoc hre2 hcap
      (parseDepsRecord_encode outId m inputIds w2.state houtlt hbnd hm hbound)

theorem runOps_ok_cons {w w' : Writer} {op : RecOp} {ops : List RecOp}
    (h : runOps w (op :: ops) = .ok w') :
    ∃ w1 b, recordDeps w op.out op.mtime op.inputs = (w1, .ok b) ∧
      runOps w1 ops = .ok w' := by
  unfold runOps at h
  rcases hc : recordDeps w op.out op.mtime op.inputs with ⟨w1, r⟩
  rw [hc] at h
  cases r with
  | error e => exact Except.noConfusion h
  | ok b => exact ⟨w1, b, rfl, h⟩

theorem runOps_nil_ok {w w' : Writer} (h : runOps w [] = .ok w') : w = w' := by
  unfold runOps at h
  exact Except.ok.inj h

theorem runOps_extends {ops : List RecOp} {w w' : Writer}
    (h : runOps w ops = .ok w') :
    w'.fileOpen = w.fileOpen ∧
    (∃ t, w'.state.nodes = w.state.nodes ++ t) ∧
    (∃ f, w'.file = w.file ++ f) := by
  induction ops generalizing w with
  | nil =>
    obtain rfl := runOps_nil_ok h
    exact ⟨rfl, ⟨[], by simp⟩, ⟨[], by simp⟩⟩
  | cons op rest ih =>
    obtain ⟨w1, b, hstep, hrest⟩ := runOps_ok_cons h
    obtain ⟨fo1, ⟨t1, ht1⟩, f1, hf1⟩ := recordDeps_extends hstep
    obtain ⟨fo2, ⟨t2, ht2⟩, f2, hf2⟩ := ih hrest
    exact ⟨fo2.trans fo1, ⟨t1 ++ t2, by rw [ht2, ht1, List.append_assoc]⟩,
      ⟨f1 ++ f2, by rw [hf2, hf1, List.append_assoc]⟩⟩

theorem runOps_good {ops : List RecOp} {w w' : Writer} (hg : GoodWriter w)
    (hv : ∀ op ∈ ops, ValidOp op) (h : runOps w ops = .ok w')
    (hbound : w'.state.nodes.length ≤ 4294967296) : GoodWriter w' := by
  induction ops generalizing w with
  | nil =>
    obtain rfl := runOps_nil_ok h
    exact hg
  | cons op rest ih =>
    obtain ⟨w1, b, hstep, hrest⟩ := runOps_ok_cons h
    obtain ⟨hvo, hvm, hvi⟩ := hv op (by simp)
    have hb1 : w1.state.nodes.length ≤ 4294967296 := by
      obtain ⟨_, ⟨t, ht⟩, _⟩ := runOps_extends hrest
      rw [ht] at hbound
      simp only [List.length_append] at hbound
      omega
    exact ih (recordDeps_good hg hvo hvi hvm hstep hb1)
      (fun o ho => hv o (by simp [ho])) hrest


theorem lookupId_append_none_ge {nodes tail : List Path} {q : Path} {k : Nat}
    (hn : lookupId nodes q = none) (hk : lookupId (nodes ++ tail) q = some k) :
    nodes.length ≤ k := by
  induction nodes generalizing k with
  | nil => simp
  | cons r rest ih =>
    rw [lookupId] at hn
    rw [List.cons_append, lookupId] at hk
    by_cases hr : r = q
    · simp [hr] at hn
    · simp only [hr, if_false, Option.map_eq_none'] at hn
      simp only [hr, if_false, Option.map_eq_some'] at hk
      obtain ⟨j, hj, rfl⟩ := hk
      have := ih hn hj
      simp only [List.length_cons]
      omega

theorem getDeps_some_eq (st : LogState) (p : Path) {id : Nat}
    (hl : lookupId st.nodes p = some id) :
    getDeps st p = st.deps.getD id none := by
  unfold getDeps
  rw [hl]

theorem getDeps_none_eq (st : LogState) (p : Path)
    (hl : lookupId st.nodes p = none) : getDeps st p = none := by
  unfold getDeps
  rw [hl]

theorem map_getD_eq {nodes : List Path} :
    ∀ {ids : List Nat} {ins : List Path}, ids.length = ins.length →
    (∀ j, j < ins.length → nodes.getD (ids.getD j 0) [] = ins.getD j []) →
    ids.map (fun i => nodes.getD i []) = ins := by
  intro ids
  induction ids with
  | nil =>
    intro ins hlen _
    cases ins with
    | nil => simp
    | cons q qs => simp at hlen
  | cons i rest ih =>
    intro ins hlen hj
    cases ins with
    | nil => simp at hlen
    | cons q qs =>
      simp only [List.map_cons, List.cons.injEq]
      constructor
      · have := hj 0 (by simp)
        simpa using this
      · refine ih (by simpa using hlen) ?_
        intro j hjlt
        have := hj (j + 1) (by simpa using hjlt)
        simpa using this

theorem recordDeps_getDeps_self {w w' : Writer} {out : Path} {m : Nat}
    {ins : List Path} {b : Bool}
    (hdl : w.state.deps.length ≤ w.state.nodes.length)
    (h : recordDeps w out m ins = (w', .ok b)) :
    getDepsPaths w'.state out = some (m, ins) ∧ b = (getDeps w.state out).isSome := by
  obtain ⟨hopen, wa, outId, w2, inputIds, hra, hrb, hcap, hw', hb⟩ := recordDeps_decomp h
  obtain ⟨_, dpa, ⟨t1, ht1⟩, hlookOut⟩ := recordId_facts hra
  obtain ⟨_, dp2, ⟨t2, ht2⟩, hlen, hlook, hbnd⟩ := recordIds_facts hrb
  have hw2deps : w2.state.deps = w.state.deps := dp2.trans dpa
  have hlookOut2 : lookupId w2.state.nodes out = some outId := by
    rw [ht2]
    exact lookupId_append_left t2 hlookOut
  have hstate' : w'.state = ⟨w2.state.nodes, setAt w2.state.deps outId ⟨m, inputIds⟩⟩ := by
    rw [hw']
  constructor
  · rw [hstate']
    unfold getDepsPaths
    rw [getDeps_some_eq ⟨w2.state.nodes, setAt w2.state.deps outId ⟨m, inputIds⟩⟩
      out hlookOut2]
    dsimp only
    rw [setAt_getD_self]
    simp only [Option.map_some']
    refine congrArg some (Prod.mk.injEq .. ▸ ⟨rfl, ?_⟩)
    refine map_getD_eq hlen ?_
    intro j hjlt
    exact lookupId_getD (hlook j hjlt)
  · rw [hb, hw2deps]
    rcases recordId_ok_inv hra with ⟨hfound, _⟩ | ⟨hnone, hid, _, _⟩
    · rw [getDeps_some_eq w.state out hfound]
    · rw [getDeps_none_eq w.state out hnone, hid,
        List.getD_eq_default _ _ (by omega)]

theorem recordDeps_getDeps_other {w w' : Writer} {out : Path} {m : Nat}
    {ins : List Path} {b : Bool} {q : Path} (hsi : StateInv w.state)
    (h : recordDeps w out m ins = (w', .ok b)) (hne : q ≠ out) :
    getDepsPaths w'.state q = getDepsPaths w.state q := by
  obtain ⟨hopen, wa, outId, w2, inputIds, hra, hrb, hcap, hw', hb⟩ := recordDeps_decomp h
  obtain ⟨_, dpa, ⟨t1, ht1⟩, hlookOut⟩ := recordId_facts hra
  obtain ⟨_, dp2, ⟨t2, ht2⟩, hlen, hlook, hbnd⟩ := recordIds_facts hrb
  obtain ⟨hnd, hdl, hent⟩ := hsi
  have hw2deps : w2.state.deps = w.state.deps := dp2.trans dpa
  have hw2nodes : w2.state.nodes = w.state.nodes ++ (t1 ++ t2) := by
    rw [ht2, ht1, List.append_assoc]
  have hlookOut2 : lookupId w2.state.nodes out = some outId := by
    rw [ht2]
    exact lookupId_append_left t2 hlookOut
  have hstate' : w'.state = ⟨w2.state.nodes, setAt w2.state.deps outId ⟨m, inputIds⟩⟩ := by
    rw [hw']
  rw [hstate']
  unfold getDepsPaths
  cases hq : lookupId w.state.nodes q with
  | some j =>
    have hjlt : j < w.state.nodes.length := lookupId_lt_length hq
    have hlq2 : lookupId w2.state.nodes q = some j := by
      rw [hw2nodes]
      exact lookupId_append_left _ hq
    have hjne : j ≠ outId := by
      intro heq
      apply hne
      have h1 := lookupId_getD hlq2
      have h2 := lookupId_getD hlookOut2
      rw [← h1, ← h2, heq]
    rw [getDeps_some_eq ⟨w2.state.nodes, setAt w2.state.deps outId ⟨m, inputIds⟩⟩ q hlq2,
      getDeps_some_eq w.state q hq]
    dsimp only
    rw [setAt_getD_ne _ _ hjne, hw2deps]
    cases hd : w.state.deps.getD j none with
    | none => rfl
    | some d =>
      simp only [Option.map_some']
      refine congrArg some (Prod.mk.injEq .. ▸ ⟨rfl, ?_⟩)
      refine List.map_congr_left ?_
      intro i hi
      have hilt : i < w.state.nodes.length := hent j d hd i hi
      rw [hw2nodes, List.getD_append _ _ _ _ hilt]
  | none =>
    rw [getDeps_none_eq w.state q hq]
    cases hq2 : lookupId w2.state.nodes q with
    | none =>
      rw [getDeps_none_eq ⟨w2.state.nodes, setAt w2.state.deps outId ⟨m, inputIds⟩⟩ q hq2]
      rfl
    | some k =>
      have hkge : w.state.nodes.length ≤ k := by
        rw [hw2nodes] at hq2
        exact lookupId_append_none_ge hq hq2
      have hkne : k ≠ outId := by
        intro heq
        apply hne
        have h1 := lookupId_getD hq2
        have h2 := lookupId_getD hlookOut2
        rw [← h1, ← h2, heq]
      rw [getDeps_some_eq ⟨w2.state.nodes, setAt w2.state.deps outId ⟨m, inputIds⟩⟩ q hq2]
      dsimp only
      rw [setAt_getD_ne _ _ hkne, hw2deps,
        List.getD_eq_default _ _ (by omega)]
      rfl


theorem runOps_getDeps_preserved {ops : List RecOp} {w w' : Writer} {q : Path}
    (hg : GoodWriter w) (hv : ∀ o ∈ ops, ValidOp o) (h : runOps w ops = .ok w')
    (hbound : w'.state.nodes.length ≤ 4294967296)
    (hq : ∀ o ∈ ops, o.out ≠ q) :
    getDepsPaths w'.state q = getDepsPaths w.state q := by
  induction ops generalizing w with
  | nil =>
    obtain rfl := runOps_nil_ok h
    rfl
  | cons op rest ih =>
    obtain ⟨w1, b, hstep, hrest⟩ := runOps_ok_cons h
    obtain ⟨hvo, hvm, hvi⟩ := hv op (by simp)
    have hb1 : w1.state.nodes.length ≤ 4294967296 := by
      obtain ⟨_, ⟨t, ht⟩, _⟩ := runOps_extends hrest
      rw [ht] at hbound
      simp only [List.length_append] at hbound
      omega
    have hg1 : GoodWriter w1 := recordDeps_good hg hvo hvi hvm hstep hb1
    rw [ih hg1 (fun o ho => hv o (by simp [ho])) hrest
      (fun o ho => hq o (by simp [ho]))]
    exact recordDeps_getDeps_other hg.2.1 hstep
      (fun hc => hq op (by simp) hc.symm)

theorem runOps_getDeps_last {pre : List RecOp} {op : RecOp} {post : List RecOp}
    {w w' : Writer}
    (hg : GoodWriter w) (hv : ∀ o ∈ pre ++ op :: post, ValidOp o)
    (h : runOps w (pre ++ op :: post) = .ok w')
    (hbound : w'.state.nodes.length ≤ 4294967296)
    (hlast : ∀ o ∈ post, o.out ≠ op.out) :
    getDepsPaths w'.state op.out = some (op.mtime, op.inputs) := by
  induction pre generalizing w with
  | nil =>
    rw [List.nil_append] at h hv
    obtain ⟨w1, b, hstep, hrest⟩ := runOps_ok_cons h
    obtain ⟨hvo, hvm, hvi⟩ := hv op (by simp)
    have hb1 : w1.state.nodes.length ≤ 4294967296 := by
      obtain ⟨_, ⟨t, ht⟩, _⟩ := runOps_extends hrest
      rw [ht] at hbound
      simp only [List.length_append] at hbound
      omega
    have hg1 : GoodWriter w1 := recordDeps_good hg hvo hvi hvm hstep hb1
    rw [runOps_getDeps_preserved hg1 (fun o ho => hv o (by simp [ho])) hrest
      hbound hlast]
    exact (recordDeps_getDeps_self hg.2.1.2.1 hstep).1
  | cons p pre2 ih =>
    rw [List.cons_append] at h hv
    obtain ⟨w1, b, hstep, hrest⟩ := runOps_ok_cons h
    obtain ⟨hvo, hvm, hvi⟩ := hv p (by simp)
    have hb1 : w1.state.nodes.length ≤ 4294967296 := by
      obtain ⟨_, ⟨t, ht⟩, _⟩ := runOps_extends hrest
      rw [ht] at hbound
      simp only [List.length_append] at hbound
      omega
    exact ih (recordDeps_good hg hvo hvi hvm hstep hb1)
      (fun o ho => hv o (by simp [ho])) hrest

theorem kHeader_ne_nil : kHeader ≠ [] := by
  simp [kHeader, kFileSignature, le32]

theorem load_goodWriter {w : Writer} (hg : GoodWriter w) :
    load (some w.file) = ⟨.loadedClean, w.state, w.file.length⟩ := by
  obtain ⟨_, _, rb, hfile, hre⟩ := hg
  rw [hfile]
  unfold load
  dsimp only
  rw [if_neg (by simp [kHeader_ne_nil]), if_neg (by rw [List.take_left]; simp),
    List.drop_left]
  have hr : replay rb emptyState kHeader.length
      = (w.state, kHeader.length + rb.length, true) := by
    have := hre [] kHeader.length
    rw [List.append_nil, replay_nil] at this
    rw [this]
  rw [hr]
  simp [List.length_append]

theorem load_goodWriter_garbage {w : Writer} {g : List Nat} (hg : GoodWriter w)
    (hbad : ∀ off, replay g w.state off = (w.state, off, false)) :
    load (some (w.file ++ g)) = ⟨.recovered, w.state, w.file.length⟩ := by
  obtain ⟨_, _, rb, hfile, hre⟩ := hg
  rw [hfile, List.append_assoc]
  unfold load
  dsimp only
  rw [if_neg (by simp [kHeader_ne_nil]), if_neg (by rw [List.take_left]; simp),
    List.drop_left]
  have hr : replay (rb ++ g) emptyState kHeader.length
      = (w.state, kHeader.length + rb.length, false) := by
    rw [hre g kHeader.length, hbad]
  rw [hr]
  simp [List.length_append]


theorem badTail_oversize {g : List Nat} (st : LogState) (h4 : ¬ g.length < 4)
    (hbig : kMaxRecordSize < readLE32 g % 2147483648) :
    ∀ off, replay g st off = (st, off, false) :=
  fun off => replay_stop_oversize st off h4 (Or.inl hbig)

theorem replay_record_stop {isDeps : Bool} {payload : List Nat} {st : LogState}
    (rest : List Nat) (off : Nat)
    (hcap : payload.length ≤ kMaxRecordSize)
    (hparse : (if isDeps then parseDepsRecord payload st else parsePathRecord payload st) =
      none) :
    replay (encRecord isDeps payload ++ rest) st off = (st, off, false) := by
  have hcap' : payload.length ≤ 524288 := hcap
  have hb : encRecord isDeps payload ++ rest
      = le32 (payload.length + if isDeps then 2147483648 else 0) ++ (payload ++ rest) := by
    simp [encRecord]
  have hread : readLE32 (encRecord isDeps payload ++ rest)
      = payload.length + (if isDeps then 2147483648 else 0) := by
    rw [hb, readLE32_le32_append, Nat.mod_eq_of_lt]
    cases isDeps <;> simp <;> omega
  have hmod : readLE32 (encRecord isDeps payload ++ rest) % 2147483648 = payload.length := by
    rw [hread]
    cases isDeps <;> simp <;> omega
  have hlen : (encRecord isDeps payload ++ rest).length = 4 + (payload.length + rest.length) := by
    rw [hb, length_le32_append, List.length_append]
  have h4 : ¬ (encRecord isDeps payload ++ rest).length < 4 := by
    rw [hlen]; omega
  have hsz : ¬ (kMaxRecordSize < readLE32 (encRecord isDeps payload ++ rest) % 2147483648 ∨
      (encRecord isDeps payload ++ rest).length < 4 +
        readLE32 (encRecord isDeps payload ++ rest) % 2147483648) := by
    rw [hmod, hlen]
    push_neg
    refine ⟨hcap, by omega⟩
  have hdrop4 : (encRecord isDeps payload ++ rest).drop 4 = payload ++ rest := by
    rw [hb, drop4_le32_append]
  have htake : (payload ++ rest).take payload.length = payload := by
    rw [List.take_append_of_le_length (le_refl _), List.take_length]
  refine replay_stop_badparse st off h4 hsz ?_
  cases isDeps with
  | false =>
    have hnd : ¬ 2147483648 ≤ readLE32 (encRecord false payload ++ rest) := by
      rw [hread]; simp; omega
    rw [if_neg hnd, hmod, hdrop4, htake]
    simpa using hparse
  | true =>
    have hd : 2147483648 ≤ readLE32 (encRecord true payload ++ rest) := by
      rw [hread]; simp
    rw [if_pos hd, hmod, hdrop4, htake]
    simpa using hparse

/-- C1: Round-trip with latest-wins — after any successful sequence of
`record_deps` calls, closing, reopening and loading the file reproduces
the writer's in-memory state with a clean status; `get_deps` of every
recorded output returns exactly the input list and mtime of the last
`record_deps` call for that output, never an earlier one; and the file
only ever grows by appending, so earlier records remain physically
present. -/
theorem C1_round_trip_latest_wins (ops : List RecOp) (w' : Writer)
    (hrun : runOps freshWriter ops = .ok w')
    (hops : ∀ op ∈ ops, ValidOp op)
    (hbound : w'.state.nodes.length ≤ 4294967296) :
    load (some (closeLog w').file) = ⟨.loadedClean, w'.state, w'.file.length⟩ ∧
    (∃ f, w'.file = freshWriter.file ++ f) ∧
    ∀ pre op post, ops = pre ++ op :: post → (∀ o ∈ post, o.out ≠ op.out) →
      getDepsPaths (load (some (closeLog w').file)).state op.out
        = some (op.mtime, op.inputs) := by
  have hg' : GoodWriter w' := runOps_good goodWriter_fresh hops hrun hbound
  have hload : load (some w'.file) = ⟨.loadedClean, w'.state, w'.file.length⟩ :=
    load_goodWriter hg'
  have hclose : (closeLog w').file = w'.file := rfl
  refine ⟨by rw [hclose, hload], (runOps_extends hrun).2.2, ?_⟩
  intro pre op post hsplit hlast
  rw [hclose, hload]
  subst hsplit
  exact runOps_getDeps_last goodWriter_fresh hops hrun hbound hlast

/-- Witness for C1: a run recording output `A` twice; after close, reopen
and load, `get_deps` returns the mtime and inputs of the second call. -/
theorem C1_witness :
    getDepsPaths (load (some (closeLog demoW).file)).state [65]
      = some (200, [[66], [68]]) :=
  (C1_round_trip_latest_wins demoOps demoW (by decide) (by decide) (by decide)).2.2
    [⟨[65], 100, [[66], [67]]⟩] ⟨[65], 200, [[66], [68]]⟩ [] (by decide)
    (by decide)

/-- C2: Corruption is never a hard load failure — a well-formed log
followed by garbage that replays to no valid record loads with the
recovered status and exactly the state of the valid records, and the
log is reopened to append after the salvaged prefix, discarding the
garbage bytes. -/
theorem C2_truncation_recovery (ops : List RecOp) (w' : Writer) (g : List Nat)
    (hrun : runOps freshWriter ops = .ok w')
    (hops : ∀ op ∈ ops, ValidOp op)
    (hbound : w'.state.nodes.length ≤ 4294967296)
    (hg : ∀ off, replay g w'.state off = (w'.state, off, false)) :
    load (some (w'.file ++ g)) = ⟨.recovered, w'.state, w'.file.length⟩ ∧
    reopen (some (w'.file ++ g)) = ⟨true, w'.file, w'.state⟩ := by
  have hgw : GoodWriter w' := runOps_good goodWriter_fresh hops hrun hbound
  have hload := load_goodWriter_garbage hgw hg
  refine ⟨hload, ?_⟩
  obtain ⟨_, _, rb, hfile, _⟩ := hgw
  have hne : w'.file ≠ [] := by
    rw [hfile]
    simp [kHeader_ne_nil]
  have hsal : salvage (some (w'.file ++ g)) = w'.file := by
    unfold salvage
    dsimp only
    rw [hload]
    dsimp only
    rw [List.take_left]
  unfold reopen
  rw [hsal, hload]
  unfold openForWrite
  rw [if_neg hne]

/-- Witness for C2: the concrete run followed by an oversized-header
garbage record recovers to exactly the run's state. -/
theorem C2_witness :
    load (some (demoW.file ++ demoGarbage))
      = ⟨.recovered, demoW.state, demoW.file.length⟩ ∧
    reopen (some (demoW.file ++ demoGarbage)) = ⟨true, demoW.file, demoW.state⟩ :=
  C2_truncation_recovery demoOps demoW demoGarbage (by decide) (by decide)
    (by decide) (badTail_oversize demoW.state (by decide) (by decide))

/-- C3: Path record codec — a fresh path is written as the raw path
bytes, zero-padded to a 4-byte boundary, followed by the one's complement
of the id it receives (the count of path records already written); and on
replay a path record whose trailer is not the complement of the next
expected id stops the loader there, discarding it and everything after
it. -/
theorem C3_path_record_codec :
    (∀ (w w1 : Writer) (p : Path) (id : Nat),
      lookupId w.state.nodes p = none → recordId w p = (w1, .ok id) →
      id = w.state.nodes.length ∧ padLen p.length < 4 ∧
        (p.length + padLen p.length) % 4 = 0 ∧
        w1.file = w.file ++ le32 (p.length + padLen p.length + 4) ++
          (p ++ List.replicate (padLen p.length) 0 ++ le32 (4294967295 - id))) ∧
    (∀ (payload rest : List Nat) (st : LogState) (off : Nat),
      payload.length ≤ kMaxRecordSize →
      readLE32 (payload.drop (payload.length - 4)) ≠ 4294967295 - st.nodes.length →
      replay (encRecord false payload ++ rest) st off = (st, off, false)) := by
  constructor
  · intro w w1 p id hnone h
    rcases recordId_ok_inv h with ⟨hfound, _⟩ | ⟨_, hid, _, rfl⟩
    · rw [hnone] at hfound
      exact Option.noConfusion hfound
    · refine ⟨hid, padLen_lt p.length, padLen_mod p.length, ?_⟩
      subst hid
      show w.file ++ encRecord false (pathPayload p w.state.nodes.length) = _
      simp only [encRecord, pathPayload, List.append_assoc, Bool.false_eq_true,
        if_false, Nat.add_zero, List.length_append, List.length_replicate]
      rw [le32_length]
      have harith : List.length p + (padLen (List.length p) + 4)
          = List.length p + padLen (List.length p) + 4 := by omega
      rw [harith]
  · intro payload rest st off hcap htr
    refine replay_record_stop rest off hcap ?_
    simp only [Bool.false_eq_true, if_false]
    unfold parsePathRecord
    by_cases hlm : payload.length < 4 ∨ payload.length % 4 ≠ 0
    · rw [if_pos hlm]
    · rw [if_neg hlm, if_pos htr]

/-- C9: Absent-file load — a missing file and an empty file both load
with the absent status and empty Path Table and Deps Index, not an
error. -/
theorem C9_absent_file_load :
    load none = ⟨.absent, emptyState, 0⟩ ∧
    load (some []) = ⟨.absent, emptyState, 0⟩ ∧
    emptyState.nodes = [] ∧ emptyState.deps = [] :=
  ⟨rfl, rfl, rfl, rfl⟩


theorem C3_witness :
    replay (encRecord false [1, 2, 3, 0, 9, 9, 9, 9] ++ [1, 2, 3]) emptyState 16
      = (emptyState, 16, false) :=
  C3_path_record_codec.2 [1, 2, 3, 0, 9, 9, 9, 9] [1, 2, 3] emptyState 16
    (by decide) (by decide)

theorem recordId_stateInv {w w1 : Writer} {p : Path} {id : Nat}
    (hsi : StateInv w.state) (h : recordId w p = (w1, .ok id)) :
    StateInv w1.state := by
  rcases recordId_ok_inv h with ⟨_, rfl⟩ | ⟨hl, _, _, rfl⟩
  · exact hsi
  · obtain ⟨hnd, hdl, hent⟩ := hsi
    refine ⟨nodup_snoc hnd (lookupId_none_iff.1 hl), ?_, ?_⟩
    · simp only [List.length_append, List.length_singleton]
      omega
    · intro j d hd i hi
      have := hent j d hd i hi
      simp only [List.length_append, List.length_singleton]
      omega

theorem recordIds_stateInv {ps : List Path} {w w2 : Writer} {ids : List Nat}
    (hsi : StateInv w.state) (h : recordIds w ps = (w2, .ok ids)) :
    StateInv w2.state := by
  induction ps generalizing w ids with
  | nil =>
    unfold recordIds at h
    have h1 : w = w2 := congrArg Prod.fst h
    exact h1 ▸ hsi
  | cons p rest ih =>
    unfold recordIds at h
    rcases hra : recordId w p with ⟨wa, ra⟩
    rw [hra] at h
    cases ra with
    | error e => exact Except.noConfusion (congrArg Prod.snd h)
    | ok id =>
      dsimp only at h
      rcases hrb : recordIds wa rest with ⟨wb, rb⟩
      rw [hrb] at h
      cases rb with
      | error e => exact Except.noConfusion (congrArg Prod.snd h)
      | ok ids2 =>
        have hw : wb = w2 := congrArg Prod.fst h
        subst hw
        exact ih (recordId_stateInv hsi hra) hrb

theorem recordDeps_stateInv {w w' : Writer} {out : Path} {m : Nat}
    {ins : List Path} {b : Bool} (hsi : StateInv w.state)
    (h : recordDeps w out m ins = (w', .ok b)) : StateInv w'.state := by
  obtain ⟨hopen, wa, outId, w2, inputIds, hra, hrb, hcap, hw', hb⟩ := recordDeps_decomp h
  have hg2 : StateInv w2.state := recordIds_stateInv (recordId_stateInv hsi hra) hrb
  obtain ⟨_, _, _, hlookOut⟩ := recordId_facts hra
  obtain ⟨_, _, ⟨t2, ht2⟩, _, _, hbnd⟩ := recordIds_facts hrb
  have hlookOut2 : lookupId w2.state.nodes out = some outId := by
    rw [ht2]
    exact lookupId_append_left t2 hlookOut
  have houtlt : outId < w2.state.nodes.length := lookupId_lt_length hlookOut2
  obtain ⟨hnd2, hdl2, hent2⟩ := hg2
  subst hw'
  refine ⟨hnd2, ?_, ?_⟩
  · show (setAt w2.state.deps outId ⟨m, inputIds⟩).length ≤ w2.state.nodes.length
    rw [setAt_length]
    omega
  · intro j d hd i hi
    show i < w2.state.nodes.length
    by_cases hj : j = outId
    · subst hj
      rw [setAt_getD_self] at hd
      have hde : ({ mtime := m, inputs := inputIds } : DepsRec) = d := Option.some.inj hd
      rw [← hde] at hi
      exact hbnd i hi
    · rw [setAt_getD_ne _ _ hj] at hd
      exact hent2 j d hd i hi

theorem runOps_stateInv {ops : List RecOp} {w w' : Writer}
    (hsi : StateInv w.state) (h : runOps w ops = .ok w') : StateInv w'.state := by
  induction ops generalizing w with
  | nil =>
    obtain rfl := runOps_nil_ok h
    exact hsi
  | cons op rest ih =>
    obtain ⟨w1, b, hstep, hrest⟩ := runOps_ok_cons h
    exact ih (recordDeps_stateInv hsi hstep) hrest

theorem stateInv_fresh : StateInv freshWriter.state :=
  goodWriter_fresh.2.1

theorem parse_nodes_extends {payload : List Nat} {st st2 : LogState}
    (c : Prop) [Decidable c]
    (h : (if c then parseDepsRecord payload st else parsePathRecord payload st) =
      some st2) : ∃ t, st2.nodes = st.nodes ++ t := by
  by_cases hcp : c
  · rw [if_pos hcp] at h
    unfold parseDepsRecord at h
    by_cases hc : payload.length < 12 ∨ payload.length % 4 ≠ 0
    · rw [if_pos hc] at h
      exact Option.noConfusion h
    · rw [if_neg hc] at h
      cases hw : readWords payload with
      | nil => rw [hw] at h; exact Option.noConfusion h
      | cons o rest =>
        cases rest with
        | nil => rw [hw] at h; exact Option.noConfusion h
        | cons lo rest2 =>
          cases rest2 with
          | nil => rw [hw] at h; exact Option.noConfusion h
          | cons hi ids =>
            rw [hw] at h
            dsimp only at h
            by_cases hok : o < st.nodes.length ∧ ∀ i ∈ ids, i < st.nodes.length
            · rw [if_pos hok] at h
              obtain rfl := Option.some.inj h
              exact ⟨[], by simp⟩
            · rw [if_neg hok] at h
              exact Option.noConfusion h
  · rw [if_neg hcp] at h
    unfold parsePathRecord at h
    by_cases hc : payload.length < 4 ∨ payload.length % 4 ≠ 0
    · rw [if_pos hc] at h
      exact Option.noConfusion h
    · rw [if_neg hc] at h
      by_cases ht : readLE32 (payload.drop (payload.length - 4)) ≠
          4294967295 - st.nodes.length
      · rw [if_pos ht] at h
        exact Option.noConfusion h
      · rw [if_neg ht] at h
        obtain rfl := Option.some.inj h
        exact ⟨_, rfl⟩

theorem replay_nodes_extends_fuel : ∀ (n : Nat) (bytes : List Nat), bytes.length ≤ n →
    ∀ (st : LogState) (off : Nat),
    ∃ tail, (replay bytes st off).1.nodes = st.nodes ++ tail := by
  intro n
  induction n with
  | zero =>
    intro bytes hb st off
    have hnil : bytes = [] := List.eq_nil_of_length_eq_zero (by omega)
    subst hnil
    rw [replay_nil]
    exact ⟨[], by simp⟩
  | succ n ih =>
    intro bytes hb st off
    by_cases h4 : bytes.length < 4
    · by_cases hnil : bytes = []
      · subst hnil
        rw [replay_nil]
        exact ⟨[], by simp⟩
      · rw [replay_stop_short st off h4 hnil]
        exact ⟨[], by simp⟩
    · by_cases hsz : kMaxRecordSize < readLE32 bytes % 2147483648 ∨
          bytes.length < 4 + readLE32 bytes % 2147483648
      · rw [replay_stop_oversize st off h4 hsz]
        exact ⟨[], by simp⟩
      · cases hp : (if 2147483648 ≤ readLE32 bytes then
            parseDepsRecord ((bytes.drop 4).take (readLE32 bytes % 2147483648)) st
          else
            parsePathRecord ((bytes.drop 4).take (readLE32 bytes % 2147483648)) st) with
        | none =>
          rw [replay_stop_badparse st off h4 hsz hp]
          exact ⟨[], by simp⟩
        | some st2 =>
          have hstep : replay bytes st off
              = replay (bytes.drop (4 + readLE32 bytes % 2147483648)) st2
                (off + (4 + readLE32 bytes % 2147483648)) := by
            rw [replay, dif_neg h4, dif_neg hsz, hp]
          rw [hstep]
          obtain ⟨t0, ht0⟩ := parse_nodes_extends _ hp
          obtain ⟨t1, ht1⟩ := ih (bytes.drop (4 + readLE32 bytes % 2147483648))
            (by simp only [List.length_drop]; omega) st2
            (off + (4 + readLE32 bytes % 2147483648))
          exact ⟨t0 ++ t1, by rw [ht1, ht0, List.append_assoc]⟩

/-- C4: Id density — a fresh path gets the next dense id (the current
count) and is appended at the end of the Path Table; after any successful
run from a fresh log the table has no duplicates and every position is
exactly the id looked up for the path stored there (ids are exactly
0..k-1); writer appends and loader replays only ever extend the table,
so no id is ever reassigned within a session. -/
theorem C4_id_density :
    (∀ (w w1 : Writer) (p : Path) (id : Nat),
      lookupId w.state.nodes p = none → recordId w p = (w1, .ok id) →
      id = w.state.nodes.length ∧ w1.state.nodes = w.state.nodes ++ [p]) ∧
    (∀ (ops : List RecOp) (w' : Writer), runOps freshWriter ops = .ok w' →
      w'.state.nodes.Nodup ∧
      ∀ i, i < w'.state.nodes.length →
        lookupId w'.state.nodes (w'.state.nodes.getD i []) = some i) ∧
    (∀ (ops : List RecOp) (w0 w' : Writer), runOps w0 ops = .ok w' →
      ∃ tail, w'.state.nodes = w0.state.nodes ++ tail) ∧
    (∀ (bytes : List Nat) (st : LogState) (off : Nat),
      ∃ tail, (replay bytes st off).1.nodes = st.nodes ++ tail) := by
  refine ⟨?_, ?_, ?_, ?_⟩
  · intro w w1 p id hnone h
    rcases recordId_ok_inv h with ⟨hfound, _⟩ | ⟨_, hid, _, rfl⟩
    · rw [hnone] at hfound
      exact Option.noConfusion hfound
    · exact ⟨hid, rfl⟩
  · intro ops w' hrun
    have hsi : StateInv w'.state := runOps_stateInv stateInv_fresh hrun
    exact ⟨hsi.1, fun i hi => lookupId_nodup_getD hsi.1 hi⟩
  · intro ops w0 w' hrun
    exact (runOps_extends hrun).2.1
  · intro bytes st off
    exact replay_nodes_extends_fuel bytes.length bytes (le_refl _) st off

/-- Witness for C4: the concrete run yields a duplicate-free Path Table
whose entry at position 0 looks up to id 0. -/
theorem C4_witness :
    demoW.state.nodes.Nodup ∧
    lookupId demoW.state.nodes (demoW.state.nodes.getD 0 []) = some 0 := by
  refine ⟨(C4_id_density.2.1 demoOps demoW (by decide)).1, ?_⟩
  exact (C4_id_density.2.1 demoOps demoW (by decide)).2 0 (by decide)

/-- C7: the return value of `record_deps` — the call returns true exactly
when a prior Deps Index entry existed for the output id, and afterwards
the index holds the new mtime and input list for that output, the prior
entry discarded. -/
theorem C7_record_deps_return (w : Writer) (out : Path) (m : Nat)
    (ins : List Path) (w' : Writer) (b : Bool)
    (hdl : w.state.deps.length ≤ w.state.nodes.length)
    (h : recordDeps w out m ins = (w', .ok b)) :
    (b = true ↔ (getDeps w.state out).isSome = true) ∧
    getDepsPaths w'.state out = some (m, ins) := by
  obtain ⟨hself, hb⟩ := recordDeps_getDeps_self hdl h
  exact ⟨by rw [hb], hself⟩

/-- Witness for C7: recording output `A` again over the concrete run
returns true (a prior entry existed) and stores the new record. -/
theorem C7_witness :
    (true = true ↔ (getDeps demoW.state [65]).isSome = true) ∧
    getDepsPaths demoW2.state [65] = some (300, [[66]]) :=
  C7_record_deps_return demoW [65] 300 [[66]] demoW2 true (by decide) (by decide)

/-- C8: the 512 KiB payload cap — a dependency record whose payload would
exceed the cap makes `record_deps` report a hard error to the caller, and
a path record whose payload would exceed the cap makes the write fail
with an explicit error, leaving the writer untouched; the record is never
silently truncated. -/
theorem C8_payload_cap :
    (∀ (w : Writer) (out : Path) (m : Nat) (ins : List Path),
      kMaxRecordSize < 12 + 4 * ins.length →
      isOkE (recordDeps w out m ins).2 = false) ∧
    (∀ (w : Writer) (p : Path),
      lookupId w.state.nodes p = none →
      kMaxRecordSize < (pathPayload p w.state.nodes.length).length →
      recordId w p = (w, .error "path record too large")) := by
  constructor
  · intro w out m ins hbig
    unfold recordDeps
    by_cases hopen : w.fileOpen = false
    · rw [if_pos hopen]
      rfl
    · rw [if_neg hopen]
      rcases hra : recordId w out with ⟨wa, ra⟩
      cases ra with
      | error e => rfl
      | ok outId =>
        dsimp only
        rcases hrb : recordIds wa ins with ⟨wb, rb⟩
        cases rb with
        | error e => rfl
        | ok inputIds =>
          dsimp only
          obtain ⟨_, _, _, hlen, _, _⟩ := recordIds_facts hrb
          rw [if_pos (by rw [depsPayload_length, hlen]; exact hbig)]
          rfl
  · intro w p hl hbig
    unfold recordId
    rw [hl]
    dsimp only
    rw [if_pos hbig]

/-- Witness for C8: a call with 131070 inputs (payload 524292 bytes,
above the cap) is rejected. -/
theorem C8_witness :
    isOkE (recordDeps freshWriter [65] 1 (List.replicate 131070 [66])).2 = false :=
  C8_payload_cap.1 freshWriter [65] 1 (List.replicate 131070 [66])
    (by rw [List.length_replicate]; norm_num [kMaxRecordSize])

theorem recordIdsN_eq (ps : List Path) : ∀ w : Writer,
    recordIdsN w ps.length (fun i => ps.getD i []) = recordIds w ps := by
  induction ps with
  | nil => intro w; rfl
  | cons p rest ih =>
    intro w
    show recordIdsN w (rest.length + 1) (fun i => (p :: rest).getD i [])
      = recordIds w (p :: rest)
    unfold recordIdsN recordIds
    rw [show (p :: rest).getD 0 ([] : Path) = p from rfl]
    rcases hra : recordId w p with ⟨w1, ra⟩
    cases ra with
    | error e => rfl
    | ok id =>
      dsimp only
      have hfun : (fun i => (p :: rest).getD (i + 1) ([] : Path))
          = (fun i => rest.getD i []) := rfl
      rw [hfun, ih w1]

/-- C10: Overload equivalence of RecordDeps — the list overload and the
count-plus-index overload return the same result and leave the writer
(file bytes, Path Table, Deps Index) in the same state. -/
theorem C10_overload_equiv (w : Writer) (out : Path) (m : Nat) (ins : List Path) :
    recordDeps w out m ins = recordDepsN w out m ins.length (fun i => ins.getD i []) := by
  unfold recordDeps recordDepsN
  by_cases hopen : w.fileOpen = false
  · rw [if_pos hopen, if_pos hopen]
  · rw [if_neg hopen, if_neg hopen]
    rcases hra : recordId w out with ⟨w1, ra⟩
    cases ra with
    | error e => rfl
    | ok outId =>
      dsimp only
      rw [recordIdsN_eq ins w1]


theorem parsePathRecordR_eq (payload : List Nat) (st : LogState) (arena : List Path) :
    (parsePathRecordR payload st arena).1 = parsePathRecord payload st := by
  unfold parsePathRecordR parsePathRecord resolveNode
  by_cases hc : payload.length < 4 ∨ payload.length % 4 ≠ 0
  · rw [if_pos hc, if_pos hc]
  · rw [if_neg hc, if_neg hc]
    by_cases ht : readLE32 (payload.drop (payload.length - 4)) ≠
        4294967295 - st.nodes.length
    · rw [if_pos ht, if_pos ht]
    · rw [if_neg ht, if_neg ht]

theorem replayR_eq_fuel : ∀ (n : Nat) (bytes : List Nat), bytes.length ≤ n →
    ∀ (st : LogState) (arena : List Path) (off : Nat),
    (replayR bytes st arena off).1 = replay bytes st off := by
  intro n
  induction n with
  | zero =>
    intro bytes hb st arena off
    have hnil : bytes = [] := List.eq_nil_of_length_eq_zero (by omega)
    subst hnil
    rw [replayR, replay]
    rfl
  | succ n ih =>
    intro bytes hb st arena off
    by_cases h4 : bytes.length < 4
    · rw [replayR, replay, dif_pos h4, dif_pos h4]
    · by_cases hsz : kMaxRecordSize < readLE32 bytes % 2147483648 ∨
          bytes.length < 4 + readLE32 bytes % 2147483648
      · rw [replayR, replay, dif_neg h4, dif_neg h4, dif_pos hsz, dif_pos hsz]
      · by_cases hdep : 2147483648 ≤ readLE32 bytes
        · rw [replayR, replay, dif_neg h4, dif_neg h4, dif_neg hsz, dif_neg hsz,
            if_pos hdep, if_pos hdep]
          cases hp : parseDepsRecord ((bytes.drop 4).take (readLE32 bytes % 2147483648)) st with
          | none => rfl
          | some st2 =>
            exact ih (bytes.drop (4 + readLE32 bytes % 2147483648))
              (by simp only [List.length_drop]; omega) st2 arena
              (off + (4 + readLE32 bytes % 2147483648))
        · rw [replayR, replay, dif_neg h4, dif_neg h4, dif_neg hsz, dif_neg hsz,
            if_neg hdep, if_neg hdep]
          rcases hpr : parsePathRecordR
              ((bytes.drop 4).take (readLE32 bytes % 2147483648)) st arena with ⟨o, ar2⟩
          have ho : parsePathRecord ((bytes.drop 4).take (readLE32 bytes % 2147483648)) st
              = o := by
            rw [← parsePathRecordR_eq ((bytes.drop 4).take (readLE32 bytes % 2147483648))
              st arena, hpr]
          rw [← ho]
          cases hpp : parsePathRecord ((bytes.drop 4).take (readLE32 bytes % 2147483648)) st with
          | none => rfl
          | some st2 =>
            exact ih (bytes.drop (4 + readLE32 bytes % 2147483648))
              (by simp only [List.length_drop]; omega) st2 ar2
              (off + (4 + readLE32 bytes % 2147483648))

theorem replayR_eq (bytes : List Nat) (st : LogState) (arena : List Path) (off : Nat) :
    (replayR bytes st arena off).1 = replay bytes st off :=
  replayR_eq_fuel bytes.length bytes (le_refl _) st arena off

theorem loadR_eq (f : Option (List Nat)) (arena : List Path) :
    (loadR f arena).1 = load f := by
  cases f with
  | none => rfl
  | some bytes =>
    unfold loadR load
    dsimp only
    by_cases hnil : bytes = []
    · rw [if_pos hnil, if_pos hnil]
    · rw [if_neg hnil, if_neg hnil]
      by_cases hh : bytes.take kHeader.length ≠ kHeader
      · rw [if_pos hh, if_pos hh]
      · rw [if_neg hh, if_neg hh]
        rcases hr : replayR (bytes.drop kHeader.length) emptyState arena
          kHeader.length with ⟨⟨st, off, clean⟩, ar⟩
        have hrep : replay (bytes.drop kHeader.length) emptyState kHeader.length
            = (st, off, clean) := by
          rw [← replayR_eq (bytes.drop kHeader.length) emptyState arena kHeader.length,
            hr]
        rw [hrep]

/-- C6: Load determinism — loading the same bytes with any two initial
resolver states (the idempotent node-identity resolver of the build
graph) produces identical load results: the same status, the same
id-to-path assignments and the same Deps Index contents, equal to the
resolver-free load. -/
theorem C6_load_determinism (f : Option (List Nat)) (a1 a2 : List Path) :
    (loadR f a1).1 = (loadR f a2).1 ∧ (loadR f a1).1 = load f :=
  ⟨(loadR_eq f a1).trans (loadR_eq f a2).symm, loadR_eq f a1⟩


theorem pathRecSize_pos (p : Path) : 0 < pathRecSize p := by
  unfold pathRecSize
  omega

theorem depRecSize_ge (d : DepsRec) : 16 ≤ depRecSize d := by
  unfold depRecSize
  omega

theorem allPathBytes_nil : allPathBytes [] = 0 := rfl

theorem allPathBytes_cons (p : Path) (rest : List Path) :
    allPathBytes (p :: rest) = pathRecSize p + allPathBytes rest := by
  simp [allPathBytes]

theorem allPathBytes_snoc (nodes : List Path) (p : Path) :
    allPathBytes (nodes ++ [p]) = allPathBytes nodes + pathRecSize p := by
  simp [allPathBytes]

theorem liveBytes_nil : liveBytes [] = 0 := rfl

theorem liveBytes_cons (o : Option DepsRec) (rest : List (Option DepsRec)) :
    liveBytes (o :: rest)
      = (match o with | some d => depRecSize d | none => 0) + liveBytes rest := by
  simp [liveBytes]

theorem liveBytes_replicate_none (k : Nat) :
    liveBytes (List.replicate k none) = 0 := by
  induction k with
  | zero => rfl
  | succ n ih => rw [List.replicate_succ, liveBytes_cons, ih]

theorem liveBytes_replicate_set {k i : Nat} (v : DepsRec) (hik : i < k) :
    liveBytes ((List.replicate k none).set i (some v)) = depRecSize v := by
  induction k generalizing i with
  | zero => omega
  | succ n ih =>
    rw [List.replicate_succ]
    match i with
    | 0 =>
      rw [List.set_cons_zero, liveBytes_cons, liveBytes_replicate_none]
      simp
    | j + 1 =>
      rw [List.set_cons_succ, liveBytes_cons, ih (by omega)]
      simp

theorem setAt_cons_zero (o : Option DepsRec) (rest : List (Option DepsRec))
    (v : DepsRec) : setAt (o :: rest) 0 v = some v :: rest := by
  unfold setAt
  have h : 0 + 1 - (o :: rest).length = 0 := by
    simp
  rw [h]
  simp

theorem setAt_cons_succ (o : Option DepsRec) (rest : List (Option DepsRec))
    (i : Nat) (v : DepsRec) : setAt (o :: rest) (i + 1) v = o :: setAt rest i v := by
  unfold setAt
  have h : i + 1 + 1 - (o :: rest).length = i + 1 - rest.length := by
    simp only [List.length_cons]
    omega
  rw [h, List.cons_append, List.set_cons_succ]

theorem setAt_nil_eq (i : Nat) (v : DepsRec) :
    setAt [] i v = (List.replicate (i + 1) none).set i (some v) := by
  unfold setAt
  simp

theorem setAt_liveBytes (deps : List (Option DepsRec)) : ∀ (i : Nat) (v : DepsRec),
    liveBytes (setAt deps i v) +
      (match deps.getD i none with | some d => depRecSize d | none => 0)
      = liveBytes deps + depRecSize v := by
  induction deps with
  | nil =>
    intro i v
    rw [setAt_nil_eq, liveBytes_replicate_set v (by omega)]
    simp [liveBytes_nil]
  | cons o rest ih =>
    intro i v
    match i with
    | 0 =>
      rw [setAt_cons_zero, liveBytes_cons, liveBytes_cons]
      simp only [List.getD_cons_zero]
      cases o <;> simp <;> omega
    | j + 1 =>
      rw [setAt_cons_succ, liveBytes_cons, liveBytes_cons]
      simp only [List.getD_cons_succ]
      have := ih j v
      omega

theorem pathRecordsAux_sum_le (st : LogState) : ∀ (nodes : List Path) (i : Nat),
    ((pathRecordsAux st nodes i).map List.length).sum ≤ allPathBytes nodes := by
  intro nodes
  induction nodes with
  | nil => intro i; simp [pathRecordsAux, allPathBytes_nil]
  | cons p rest ih =>
    intro i
    rw [allPathBytes_cons]
    unfold pathRecordsAux
    by_cases hr : isReferenced st i = true
    · rw [if_pos hr]
      simp only [List.map_cons, List.sum_cons, encRecord_length, pathPayload_length]
      have := ih (i + 1)
      unfold pathRecSize
      omega
    · rw [if_neg hr]
      have := ih (i + 1)
      have hp := pathRecSize_pos p
      omega

theorem pathRecordsAux_sum_lt (st : LogState) : ∀ (nodes : List Path) (i : Nat),
    (∃ j, j < nodes.length ∧ isReferenced st (i + j) = false) →
    ((pathRecordsAux st nodes i).map List.length).sum < allPathBytes nodes := by
  intro nodes
  induction nodes with
  | nil =>
    intro i ⟨j, hj, _⟩
    simp at hj
  | cons p rest ih =>
    intro i ⟨j, hj, href⟩
    rw [allPathBytes_cons]
    unfold pathRecordsAux
    by_cases hr : isReferenced st i = true
    · rw [if_pos hr]
      simp only [List.map_cons, List.sum_cons, encRecord_length, pathPayload_length]
      match j with
      | 0 =>
        rw [Nat.add_zero] at href
        rw [href] at hr
        exact Bool.noConfusion hr
      | j2 + 1 =>
        have hlt := ih (i + 1) ⟨j2, by simpa using hj, by
          have : i + 1 + j2 = i + (j2 + 1) := by omega
          rw [this]
          exact href⟩
        unfold pathRecSize
        omega
    · rw [if_neg hr]
      have := pathRecordsAux_sum_le st rest (i + 1)
      have hp := pathRecSize_pos p
      omega

theorem depRecordsAux_sum (deps : List (Option DepsRec)) : ∀ i : Nat,
    ((depRecordsAux deps i).map List.length).sum = liveBytes deps := by
  induction deps with
  | nil => intro i; rfl
  | cons o rest ih =>
    intro i
    cases o with
    | none =>
      unfold depRecordsAux
      rw [liveBytes_cons, ih (i + 1)]
      simp
    | some d =>
      unfold depRecordsAux
      rw [liveBytes_cons]
      simp only [List.map_cons, List.sum_cons, encRecord_length, depsPayload_length,
        ih (i + 1)]
      unfold depRecSize
      omega

theorem recompact_file_length (w : Writer) :
    (recompact w).file.length
      = kHeader.length + ((pathRecordsAux w.state w.state.nodes 0).map List.length).sum
        + liveBytes w.state.deps := by
  show (kHeader ++ (pathRecordsAux w.state w.state.nodes 0).flatten
      ++ (depRecordsAux w.state.deps 0).flatten).length = _
  rw [List.length_append, List.length_append, List.length_flatten,
    List.length_flatten, depRecordsAux_sum w.state.deps 0]

theorem recordId_acct {w w1 : Writer} {p : Path} {id : Nat}
    (h : recordId w p = (w1, .ok id)) :
    w1.file.length + allPathBytes w.state.nodes
      = w.file.length + allPathBytes w1.state.nodes := by
  rcases recordId_ok_inv h with ⟨_, rfl⟩ | ⟨_, _, _, rfl⟩
  · omega
  · show (w.file ++ encRecord false (pathPayload p w.state.nodes.length)).length + _
      = w.file.length + allPathBytes (w.state.nodes ++ [p])
    rw [List.length_append, encRecord_length, pathPayload_length, allPathBytes_snoc]
    unfold pathRecSize
    omega

theorem recordIds_acct {ps : List Path} {w w2 : Writer} {ids : List Nat}
    (h : recordIds w ps = (w2, .ok ids)) :
    w2.file.length + allPathBytes w.state.nodes
      = w.file.length + allPathBytes w2.state.nodes := by
  induction ps generalizing w ids with
  | nil =>
    unfold recordIds at h
    have h1 : w = w2 := congrArg Prod.fst h
    rw [h1]
  | cons p rest ih =>
    unfold recordIds at h
    rcases hra : recordId w p with ⟨wa, ra⟩
    rw [hra] at h
    cases ra with
    | error e => exact Except.noConfusion (congrArg Prod.snd h)
    | ok id =>
      dsimp only at h
      rcases hrb : recordIds wa rest with ⟨wb, rb⟩
      rw [hrb] at h
      cases rb with
      | error e => exact Except.noConfusion (congrArg Prod.snd h)
      | ok ids2 =>
        have hw : wb = w2 := congrArg Prod.fst h
        subst hw
        have h1 := recordId_acct hra
        have h2 := ih hrb
        omega

theorem recordDeps_acct {w w' : Writer} {out : Path} {m : Nat} {ins : List Path}
    {b : Bool} (h : recordDeps w out m ins = (w', .ok b)) :
    w.file.length + allPathBytes w'.state.nodes + liveBytes w'.state.deps
      ≤ w'.file.length + allPathBytes w.state.nodes + liveBytes w.state.deps ∧
    (b = true →
      w.file.length + allPathBytes w'.state.nodes + liveBytes w'.state.deps + 16
        ≤ w'.file.length + allPathBytes w.state.nodes + liveBytes w.state.deps) := by
  obtain ⟨hopen, wa, outId, w2, inputIds, hra, hrb, hcap, hw', hb⟩ := recordDeps_decomp h
  obtain ⟨_, dpa, _, _⟩ := recordId_facts hra
  obtain ⟨_, dp2, _, _, _, _⟩ := recordIds_facts hrb
  have hw2deps : w2.state.deps = w.state.deps := dp2.trans dpa
  have hacct : w2.file.length + allPathBytes w.state.nodes
      = w.file.length + allPathBytes w2.state.nodes := by
    have h1 := recordId_acct hra
    have h2 := recordIds_acct hrb
    omega
  have hfile' : w'.file.length
      = w2.file.length + depRecSize ⟨m, inputIds⟩ := by
    rw [hw']
    show (w2.file ++ encRecord true (depsPayload outId m inputIds)).length = _
    rw [List.length_append, encRecord_length, depsPayload_length]
    have hdr : depRecSize ⟨m, inputIds⟩ = 16 + 4 * inputIds.length := rfl
    rw [hdr]
    omega
  have hnodes' : allPathBytes w'.state.nodes = allPathBytes w2.state.nodes := by
    rw [hw']
  have hlive : liveBytes w'.state.deps +
      (match w.state.deps.getD outId none with
       | some d => depRecSize d | none => 0)
      = liveBytes w.state.deps + depRecSize ⟨m, inputIds⟩ := by
    rw [hw']
    dsimp only
    rw [← hw2deps]
    exact setAt_liveBytes w2.state.deps outId ⟨m, inputIds⟩
  constructor
  · cases hgd : w.state.deps.getD outId none with
    | none => rw [hgd] at hlive; simp at hlive; omega
    | some dOld =>
      rw [hgd] at hlive
      simp only at hlive
      have := depRecSize_ge dOld
      omega
  · intro hbt
    rw [hbt] at hb
    have hsome : (w.state.deps.getD outId none).isSome = true := by
      rw [← hw2deps]
      exact hb.symm
    cases hgd : w.state.deps.getD outId none with
    | none => rw [hgd] at hsome; simp at hsome
    | some dOld =>
      rw [hgd] at hlive
      simp only at hlive
      have := depRecSize_ge dOld
      omega


theorem recordDeps_out_isSome {w w' : Writer} {out : Path} {m : Nat}
    {ins : List Path} {b : Bool}
    (hdl : w.state.deps.length ≤ w.state.nodes.length)
    (h : recordDeps w out m ins = (w', .ok b)) :
    (getDeps w'.state out).isSome = true := by
  have hself := (recordDeps_getDeps_self hdl h).1
  unfold getDepsPaths at hself
  obtain ⟨d, hd, _⟩ := Option.map_eq_some'.1 hself
  rw [hd]
  rfl

theorem recordDeps_isSome_mono {w w' : Writer} {out : Path} {m : Nat}
    {ins : List Path} {b : Bool} {q : Path} (hsi : StateInv w.state)
    (h : recordDeps w out m ins = (w', .ok b))
    (hq : (getDeps w.state q).isSome = true) :
    (getDeps w'.state q).isSome = true := by
  by_cases hqo : q = out
  · subst hqo
    exact recordDeps_out_isSome hsi.2.1 h
  · have hp := recordDeps_getDeps_other hsi h hqo
    unfold getDepsPaths at hp
    cases hgd : getDeps w.state q with
    | none =>
      rw [hgd] at hq
      exact absurd hq (by simp)
    | some d =>
      rw [hgd] at hp
      obtain ⟨d2, hd2, _⟩ := Option.map_eq_some'.1 hp
      rw [hd2]
      rfl

theorem runOps_acct {ops : List RecOp} {w w' : Writer} (hsi : StateInv w.state)
    (h : runOps w ops = .ok w') :
    (w.file.length + allPathBytes w'.state.nodes + liveBytes w'.state.deps
      ≤ w'.file.length + allPathBytes w.state.nodes + liveBytes w.state.deps) ∧
    ((¬ (ops.map (fun o => o.out)).Nodup ∨
        (∃ op ∈ ops, (getDeps w.state op.out).isSome = true)) →
      w.file.length + allPathBytes w'.state.nodes + liveBytes w'.state.deps + 16
        ≤ w'.file.length + allPathBytes w.state.nodes + liveBytes w.state.deps) := by
  induction ops generalizing w with
  | nil =>
    obtain rfl := runOps_nil_ok h
    refine ⟨by omega, ?_⟩
    intro hcond
    rcases hcond with hdup | ⟨op, hop, _⟩
    · simp at hdup
    · simp at hop
  | cons op rest ih =>
    obtain ⟨w1, b, hstep, hrest⟩ := runOps_ok_cons h
    have hsi1 : StateInv w1.state := recordDeps_stateInv hsi hstep
    obtain ⟨hstep_le, hstep_lt⟩ := recordDeps_acct hstep
    obtain ⟨hrest_le, hrest_lt⟩ := ih hsi1 hrest
    refine ⟨by omega, ?_⟩
    intro hcond
    have key : b = true ∨
        (¬ (rest.map (fun o => o.out)).Nodup ∨
          ∃ op2 ∈ rest, (getDeps w1.state op2.out).isSome = true) := by
      rcases hcond with hdup | ⟨op2, hop2, hsome⟩
      · rw [List.map_cons, List.nodup_cons] at hdup
        by_cases hmem : op.out ∈ rest.map (fun o => o.out)
        · obtain ⟨op2, hop2m, hout⟩ := List.mem_map.1 hmem
          right
          right
          refine ⟨op2, hop2m, ?_⟩
          rw [hout]
          exact recordDeps_out_isSome hsi.2.1 hstep
        · right
          left
          intro hnd
          exact hdup ⟨hmem, hnd⟩
      · rcases List.mem_cons.1 hop2 with rfl | hop2m
        · left
          rw [(recordDeps_getDeps_self hsi.2.1 hstep).2]
          exact hsome
        · right
          right
          exact ⟨op2, hop2m, recordDeps_isSome_mono hsi hstep hsome⟩
    rcases key with hb1 | hcond1
    · have := hstep_lt hb1
      omega
    · have := hrest_lt hcond1
      omega

/-- C5: Compaction preserves semantics — recompact leaves the in-memory
state (Path Table with its original ids, and Deps Index) unchanged, so
`get_deps` is identical before and after for every node; the recompacted
file is never larger than the original, and strictly smaller when dead
records existed (an output recorded more than once, or an id no live
entry references). -/
theorem C5_recompact_preserves (ops : List RecOp) (w' : Writer)
    (hrun : runOps freshWriter ops = .ok w') :
    (recompact w').state = w'.state ∧
    (∀ p, getDepsPaths (recompact w').state p = getDepsPaths w'.state p) ∧
    (recompact w').file.length ≤ w'.file.length ∧
    ((¬ (ops.map (fun o => o.out)).Nodup ∨
        ∃ i, i < w'.state.nodes.length ∧ isReferenced w'.state i = false) →
      (recompact w').file.length < w'.file.length) := by
  obtain ⟨hle, hlt⟩ := runOps_acct stateInv_fresh hrun
  have hfreshF : freshWriter.file.length = kHeader.length := by
    simp [freshWriter, openForWrite]
  have hfreshA : allPathBytes freshWriter.state.nodes = 0 := rfl
  have hfreshL : liveBytes freshWriter.state.deps = 0 := rfl
  rw [hfreshF, hfreshA, hfreshL] at hle hlt
  have hrec := recompact_file_length w'
  have hpath_le := pathRecordsAux_sum_le w'.state w'.state.nodes 0
  refine ⟨rfl, fun p => rfl, by omega, ?_⟩
  intro hcond
  rcases hcond with hdup | ⟨i, hi, href⟩
  · have := hlt (Or.inl hdup)
    omega
  · have hlt2 := pathRecordsAux_sum_lt w'.state w'.state.nodes 0
      ⟨i, hi, by simpa using href⟩
    omega

/-- Witness for C5: the concrete run recorded the same output twice, so
recompacting drops a dead record and strictly shrinks the file while the
in-memory state is untouched. -/
theorem C5_witness :
    (recompact demoW).state = demoW.state ∧
    (recompact demoW).file.length < demoW.file.length := by
  have h := C5_recompact_preserves demoOps demoW (by decide)
  exact ⟨h.1, h.2.2.2 (Or.inl (by decide))⟩

end DepsLog
